import Mathlib

/-!
# Verification of `graph_memory_lint.py`

A shallow embedding of the graph-memory-bank linter
(`src/skills/graph-memory-bank/scripts/graph_memory_lint.py`) together with
theorems settling the specification claims.

Strings are modelled as `List Char` (Python `str`); filesystem paths are
modelled as `String` already in canonical (`Path.resolve()`) form, matching the
data model's "identity = absolute canonicalized path".  The operating system
(directory walk, file contents, path resolution, existence tests, relative
rendering) is abstracted into an `Env` record; the linter's own logic is
translated function-by-function from the source.
-/

namespace GraphMemoryLint

/-- Python `\s` / `str.strip` whitespace, ASCII fragment (the linter's inputs
are ASCII in every claim; full Unicode whitespace is not modelled). -/
def pyIsSpace (c : Char) : Bool :=
  c = ' ' || c = '\t' || c = '\n' || c = '\r' || c = '\x0b' || c = '\x0c'

/-- Python `str.strip()` (ASCII whitespace model). -/
def pyStrip (s : List Char) : List Char :=
  ((s.dropWhile pyIsSpace).reverse.dropWhile pyIsSpace).reverse

/-- ASCII `str.lower()`. -/
def pyLower (c : Char) : Char :=
  if 'A' ≤ c ∧ c ≤ 'Z' then Char.ofNat (c.toNat + 32) else c

/-- Line-break characters recognised by Python `str.splitlines`
(ASCII/Latin-1 fragment plus the two Unicode separators). -/
def isBreakChar (c : Char) : Bool :=
  c = '\n' || c = '\r' || c = '\x0b' || c = '\x0c' || c = '\x1c' ||
  c = '\x1d' || c = '\x1e' || c = '\x85' || c = ' ' || c = ' '

/-- Python `str.splitlines`: `acc` is the reversed current line; `skipLF`
records that the previous character was `'\r'`, so that a directly
following `'\n'` is part of the same `"\r\n"` break. -/
def splitlinesAux : Bool → List Char → List Char → List (List Char)
  | _, acc, [] => if acc = [] then [] else [acc.reverse]
  | skipLF, acc, c :: rest =>
    if skipLF = true ∧ c = '\n' then splitlinesAux false acc rest
    else if c = '\r' then acc.reverse :: splitlinesAux true [] rest
    else if isBreakChar c then acc.reverse :: splitlinesAux false [] rest
    else splitlinesAux false (c :: acc) rest

/-- Python `str.splitlines()`. -/
def splitlinesPy (s : List Char) : List (List Char) :=
  splitlinesAux false [] s

/-- Python `"\n".join(lines)`. -/
def joinLines : List (List Char) → List Char
  | [] => []
  | [l] => l
  | l :: rest => l ++ '\n' :: joinLines rest

/-- Python `haystack.find(needle)` restricted to "found at which offset":
first index `i` with `needle` a prefix of `s.drop i`, else `none`. -/
def findSub (pat : List Char) (s : List Char) : Option Nat :=
  if pat.isPrefixOf s then some 0
  else
    match s with
    | [] => none
    | _ :: r => (findSub pat r).map (· + 1)

/-- Python `s.find(pat, start)` (with `-1` rendered as `none`). -/
def findSubFrom (pat : List Char) (s : List Char) (start : Nat) : Option Nat :=
  (findSub pat (s.drop start)).map (· + start)

/-- The frontmatter delimiter `FM_DELIM = "---"`. -/
def FM_DELIM : List Char := ['-', '-', '-']

/-- The fence marker `FENCE = "```"`. -/
def FENCE : List Char := ['`', '`', '`']

/-! ## The `pick` regex

`_read_frontmatter.pick` matches `(?m)^{key}:\s*\"?([^\"\n]+)\"?\s*$` with
`re.search` and returns `m.group(1).strip()`.  The matcher below implements
exactly this pattern with Python's leftmost-match, greedy-with-backtracking
semantics: multiline `^` anchors at offset 0 and after each `'\n'`, and the
first anchor position admitting a match wins. -/

/-- `\s*$` at `s` (with `re.M`, `$` matches before `'\n'` or at the end).
Since nothing is captured afterwards, plain satisfiability is enough. -/
def matchWsEnd : List Char → Bool
  | [] => true
  | c :: rest => if c = '\n' then true else if pyIsSpace c then matchWsEnd rest else false

/-- `\"?\s*$` at `rest` (greedy `\"?`; if the quote is present but skipping it
is required, the following `\s*$` fails on `'"'` anyway). -/
def matchTailQuote (rest : List Char) : Bool :=
  if rest.head? = some '"' then matchWsEnd rest.tail else matchWsEnd rest

/-- Backtracking for the greedy group `([^\"\n]+)`: `grev` is the reversed
current candidate (initially the maximal run), `rest` the remainder; on
failure the group is shortened from the right. -/
def tryGroup : List Char → List Char → Option (List Char)
  | [], _ => none
  | grev@(c :: grev'), rest =>
    if matchTailQuote rest then some grev.reverse else tryGroup grev' (c :: rest)

/-- `([^\"\n]+)\"?\s*$` at `s`, greedy group first. -/
def matchGroup (s : List Char) : Option (List Char) :=
  tryGroup (s.takeWhile (fun c => ¬ (c = '"' ∨ c = '\n'))).reverse
    (s.drop (s.takeWhile (fun c => ¬ (c = '"' ∨ c = '\n'))).length)

/-- `\"?([^\"\n]+)\"?\s*$` at `s`: a leading quote is consumed greedily; when
present, the no-quote alternative dies immediately because the group class
excludes `'"'`. -/
def matchQG (s : List Char) : Option (List Char) :=
  if s.head? = some '"' then matchGroup s.tail else matchGroup s

/-- Backtracking for the leading greedy `\s*`: `wrev` is the reversed
still-consumable whitespace; on failure one character is handed back.
With `wrev` empty this is just `matchQG rest`, folding the final
failure case into the attempt itself. -/
def tryWs : List Char → List Char → Option (List Char)
  | [], rest => matchQG rest
  | c :: wrev', rest =>
    match matchQG rest with
    | some g => some g
    | none => tryWs wrev' (c :: rest)

/-- `\s*\"?([^\"\n]+)\"?\s*$` at `s`. -/
def matchWsQG (s : List Char) : Option (List Char) :=
  tryWs (s.takeWhile pyIsSpace).reverse (s.drop (s.takeWhile pyIsSpace).length)

/-- Advance to the next multiline `^` anchor (just past the next `'\n'`). -/
def nextLineStart : List Char → Option (List Char)
  | [] => none
  | c :: r => if c = '\n' then some r else nextLineStart r

theorem nextLineStart_length {s r : List Char} (h : nextLineStart s = some r) :
    r.length < s.length := by
  induction s generalizing r with
  | nil => simp [nextLineStart] at h
  | cons c rest ih =>
    simp only [nextLineStart] at h
    split at h
    · cases h
      exact Nat.lt_succ_self _
    · exact Nat.lt_trans (ih h) (Nat.lt_succ_self _)

/-- Scan the multiline anchors of `s` in order; at each line start whose text
begins with `key ++ ":"`, attempt the tail pattern.  The fuel argument only
makes the recursion structural: each step advances past a `'\n'`, so any
fuel above `s.length` is inexhaustible (`searchKeyFuel_congr`). -/
def searchKeyFuel (key : List Char) : Nat → List Char → Option (List Char)
  | 0, _ => none
  | fuel + 1, s =>
    match (if (key ++ [':']).isPrefixOf s then matchWsQG (s.drop (key.length + 1)) else none) with
    | some g => some g
    | none =>
      match nextLineStart s with
      | none => none
      | some r => searchKeyFuel key fuel r

/-- `_read_frontmatter.pick`: regex search over the block, then `.strip()` of
the captured group. -/
def pick (key : List Char) (fmText : List Char) : Option (List Char) :=
  (searchKeyFuel key (fmText.length + 1) fmText).map pyStrip

/-- The four recognised metadata fields (`Frontmatter` dataclass). -/
structure Frontmatter where
  id : Option (List Char)
  type : Option (List Char)
  title : Option (List Char)
  status : Option (List Char)
deriving DecidableEq, Repr

/-- `_read_frontmatter`: `content = none` models the `read_text` call raising
(the exception detail string is not modelled).  Otherwise the function is a
direct transcription: the text must start with `"---\n"`; the closing
delimiter is the first `"\n---\n"` from offset 4, or failing that the first
`"\n---"` from offset 4; the block between is handed to `pick`. -/
def readFrontmatter (content : Option (List Char)) : Option Frontmatter × Option String :=
  match content with
  | none => (none, some "read_error")
  | some text =>
    if ¬ (FM_DELIM ++ ['\n']).isPrefixOf text then (none, some "missing_frontmatter")
    else
      let e1 := findSubFrom ('\n' :: FM_DELIM ++ ['\n']) text (FM_DELIM.length + 1)
      let e2 :=
        match e1 with
        | some e => some e
        | none => findSubFrom ('\n' :: FM_DELIM) text (FM_DELIM.length + 1)
      match e2 with
      | none => (none, some "unterminated_frontmatter")
      | some e =>
        let fmText := (text.drop (FM_DELIM.length + 1)).take (e - (FM_DELIM.length + 1))
        (some ⟨pick ['i', 'd'] fmText,
               pick ['t', 'y', 'p', 'e'] fmText,
               pick ['t', 'i', 't', 'l', 'e'] fmText,
               pick ['s', 't', 'a', 't', 'u', 's'] fmText⟩,
         none)

/-! ## Link extraction -/

/-- `_strip_fenced_code_blocks` line loop: a line whose stripped form starts
with the fence marker toggles the state and is itself dropped; lines inside a
fence are dropped. -/
def stripFencedAux (inFence : Bool) : List (List Char) → List (List Char)
  | [] => []
  | l :: rest =>
    if FENCE.isPrefixOf (pyStrip l) then stripFencedAux (!inFence) rest
    else if inFence then stripFencedAux inFence rest
    else l :: stripFencedAux inFence rest

/-- `_strip_fenced_code_blocks`. -/
def stripFencedCodeBlocks (text : List Char) : List Char :=
  joinLines (stripFencedAux false (splitlinesPy text))

/-- One attempt of the link/image regex `!?\[[^\]]*\]\(([^)]+)\)` at the head
of `s`: on success, the captured parenthesised content and the remainder
after the match. -/
def tryLink (s : List Char) : Option (List Char × List Char) :=
  let body : List Char → Option (List Char × List Char) := fun r =>
    let lbl := r.takeWhile (fun c => ¬ c = ']')
    match r.drop lbl.length with
    | ']' :: '(' :: r2 =>
      let tgt := r2.takeWhile (fun c => ¬ c = ')')
      if tgt = [] then none
      else
        match r2.drop tgt.length with
        | ')' :: r3 => some (tgt, r3)
        | _ => none
    | _ => none
  match s with
  | '!' :: '[' :: r => body r
  | '[' :: r => body r
  | _ => none

theorem drop_cons_length {l r : List Char} {c : Char} {n : Nat}
    (h : l.drop n = c :: r) : r.length < l.length := by
  have := congrArg List.length h
  simp [List.length_drop] at this
  omega

theorem tryLink_length {s t rem : List Char} (h : tryLink s = some (t, rem)) :
    rem.length < s.length := by
  unfold tryLink at h
  split at h
  case _ r =>
    simp only at h
    split at h
    case _ r2 hr2 =>
      split at h
      · exact absurd h (by simp)
      · split at h
        case _ r3 hr3 =>
          cases h
          have h1 : r2.length < r.length := by
            have := drop_cons_length hr2
            have h2 : ('(' :: r2).length < r.length := drop_cons_length hr2
            simp at h2; omega
          have h2 : rem.length < r2.length := drop_cons_length hr3
          simp; omega
        · exact absurd h (by simp)
    · exact absurd h (by simp)
  case _ r =>
    simp only at h
    split at h
    case _ r2 hr2 =>
      split at h
      · exact absurd h (by simp)
      · split at h
        case _ r3 hr3 =>
          cases h
          have h2 : ('(' :: r2).length < r.length := drop_cons_length hr2
          simp at h2
          have h3 : rem.length < r2.length := drop_cons_length hr3
          simp; omega
        · exact absurd h (by simp)
    · exact absurd h (by simp)
  · exact absurd h (by simp)

/-- `re.finditer` over the link/image pattern: leftmost, non-overlapping.
The fuel argument only makes the recursion structural: every step consumes at
least one character (`tryLink_length`), so fuel `s.length` is inexhaustible. -/
def extractFuel : Nat → List Char → List (List Char)
  | 0, _ => []
  | _, [] => []
  | fuel + 1, c :: rest =>
    match tryLink (c :: rest) with
    | some tr => tr.1 :: extractFuel fuel tr.2
    | none => extractFuel fuel rest

/-- All matches of the link/image pattern, in order. -/
def extractAux (s : List Char) : List (List Char) :=
  extractFuel s.length s

/-- `_extract_markdown_link_targets`: strip fences, find all matches, strip
each capture, drop empties. -/
def extractTargets (text : List Char) : List (List Char) :=
  ((extractAux (stripFencedCodeBlocks text)).map pyStrip).filter (fun t => ¬ t = [])

/-! ## Link normalisation and classification -/

/-- Python `s.replace(String.mk [a, b], String.mk [r])`: left-to-right,
non-overlapping replacement of the two-character pattern. -/
def replacePair (a b r : Char) : List Char → List Char
  | x :: y :: rest =>
    if x = a ∧ y = b then r :: replacePair a b r rest
    else x :: replacePair a b r (y :: rest)
  | l => l

/-- Hex digit value for `%XX` decoding. -/
def hexVal (c : Char) : Option Nat :=
  if '0' ≤ c ∧ c ≤ '9' then some (c.toNat - '0'.toNat)
  else if 'a' ≤ c ∧ c ≤ 'f' then some (c.toNat - 'a'.toNat + 10)
  else if 'A' ≤ c ∧ c ≤ 'F' then some (c.toNat - 'A'.toNat + 10)
  else none

/-- Decode a UTF-8 byte run with U+FFFD replacement (models the
`errors="replace"` policy of `urllib.parse.unquote`; replacement-count corner
cases of the codec are not exercised by any claim).  The fuel argument only
makes the recursion structural: every step consumes at least one byte, so
fuel `bs.length` is inexhaustible. -/
def utf8DecodeFuel : Nat → List Nat → List Char
  | 0, _ => []
  | _, [] => []
  | fuel + 1, b :: rest =>
    if b < 0x80 then Char.ofNat b :: utf8DecodeFuel fuel rest
    else if 0xc2 ≤ b ∧ b ≤ 0xdf then
      match rest with
      | b2 :: rest2 =>
        if 0x80 ≤ b2 ∧ b2 < 0xc0 then
          Char.ofNat (((b - 0xc0) * 64) + (b2 - 0x80)) :: utf8DecodeFuel fuel rest2
        else '\uFFFD' :: utf8DecodeFuel fuel (b2 :: rest2)
      | [] => ['\uFFFD']
    else if 0xe0 ≤ b ∧ b ≤ 0xef then
      match rest with
      | b2 :: b3 :: rest3 =>
        if (0x80 ≤ b2 ∧ b2 < 0xc0) ∧ (0x80 ≤ b3 ∧ b3 < 0xc0) then
          Char.ofNat (((b - 0xe0) * 4096) + ((b2 - 0x80) * 64) + (b3 - 0x80))
            :: utf8DecodeFuel fuel rest3
        else '\uFFFD' :: utf8DecodeFuel fuel rest
      | _ => ['\uFFFD']
    else if 0xf0 ≤ b ∧ b ≤ 0xf4 then
      match rest with
      | b2 :: b3 :: b4 :: rest4 =>
        if (0x80 ≤ b2 ∧ b2 < 0xc0) ∧ (0x80 ≤ b3 ∧ b3 < 0xc0) ∧ (0x80 ≤ b4 ∧ b4 < 0xc0) then
          Char.ofNat (((b - 0xf0) * 262144) + ((b2 - 0x80) * 4096) + ((b3 - 0x80) * 64) + (b4 - 0x80))
            :: utf8DecodeFuel fuel rest4
        else '\uFFFD' :: utf8DecodeFuel fuel rest
      | _ => ['\uFFFD']
    else '\uFFFD' :: utf8DecodeFuel fuel rest

/-- UTF-8 decoding with replacement. -/
def utf8Decode (bs : List Nat) : List Char :=
  utf8DecodeFuel bs.length bs

/-- Token stream for percent-decoding: a literal character or a decoded
escape byte. -/
inductive PctTok where
  | ch (c : Char)
  | byte (b : Nat)
deriving DecidableEq, Repr

/-- Tokenise `%XX` escapes (a `%` not followed by two hex digits stays
literal, as in `urllib.parse.unquote`). -/
def pctTokens : List Char → List PctTok
  | '%' :: c1 :: c2 :: rest =>
    match hexVal c1, hexVal c2 with
    | some h1, some h2 => .byte (h1 * 16 + h2) :: pctTokens rest
    | _, _ => .ch '%' :: pctTokens (c1 :: c2 :: rest)
  | c :: rest => .ch c :: pctTokens rest
  | [] => []

/-- Emit the token stream, decoding maximal byte runs together: `bsrev` is
the reversed run of bytes collected so far. -/
def emitToksAux : List Nat → List PctTok → List Char
  | bsrev, [] => utf8Decode bsrev.reverse
  | bsrev, .byte b :: rest => emitToksAux (b :: bsrev) rest
  | bsrev, .ch c :: rest => utf8Decode bsrev.reverse ++ c :: emitToksAux [] rest

/-- `urllib.parse.unquote` (UTF-8, `errors="replace"`): maximal `%XX` runs
are decoded as UTF-8 byte sequences. -/
def unquotePy (s : List Char) : List Char :=
  emitToksAux [] (pctTokens s)

/-- `_normalize_link_target`. -/
def normalizeLinkTarget (raw : List Char) : List Char :=
  let t := pyStrip raw
  let t := if t.head? = some '<' ∧ t.getLast? = some '>' then pyStrip (t.drop 1).dropLast else t
  let t := if t.contains '#' then pyStrip (t.takeWhile (fun c => ¬ c = '#')) else t
  let t := if t.contains '?' then pyStrip (t.takeWhile (fun c => ¬ c = '?')) else t
  let t := replacePair '\\' ')' ')' t
  let t := replacePair '\\' '(' '(' t
  unquotePy t

/-- `"://" in t` for `_is_external_link`. -/
def containsSub (pat s : List Char) : Bool :=
  (findSub pat s).isSome

/-- `_is_external_link` (applied by `main` to the raw captured target). -/
def isExternalLink (target : List Char) : Bool :=
  let t := target.map pyLower
  ['#'].isPrefixOf t || containsSub [':', '/', '/'] t ||
  "mailto:".data.isPrefixOf t || "tel:".data.isPrefixOf t

/-- `target.lower().endswith(".md")`. -/
def endsWithMd (t : List Char) : Bool :=
  ".md".data.isSuffixOf (t.map pyLower)

/-! ## The `main` pipeline

Paths are canonical path strings.  The operating-system surface of `main` is
collected in `Env`:

* `rootExists` — `root.exists()`;
* `content p` — `p.read_text(...)`, `none` when reading raises (reads are
  repeatable: the tree is fixed for the run, matching the idempotence model);
* `fsExists p` — `resolved.exists()` for the broken-link check;
* `resolve p t` — `_resolve_link_path(p, t)` followed by `.resolve()`:
  OS path resolution, returning a canonical path;
* `render p` — the `p.relative_to(root.parent) if ... else p` display form;
* `rootIndex` — `(root / args.root_index).resolve()`;
* `rootStr` — `str(root)` for the success line.

The list of discovered files (the walk result after `--exclude` filtering,
in arbitrary walk order) is passed separately as `mdFiles`; its elements are
already canonical (`p.resolve() = p`), matching the Document identity in the
data model. -/
structure Env where
  rootExists : Bool
  content : String → Option (List Char)
  fsExists : String → Bool
  resolve : String → List Char → String
  render : String → String
  rootIndex : String
  rootStr : String

/-- The command-line switches the core reads (`--required` already split on
commas and stripped, as `main` does before the loop). -/
structure Args where
  check_links : Bool
  check_orphans : Bool
  required : List String

/-- Mutable state of `main`'s per-document loop: the `errors` list, the
`ids` insertion-ordered dict, and the `inbound` counter table (total over
canonical paths; only keys in the discovered set are ever bumped). -/
structure MainState where
  errors : List (String × String)
  ids : List (List Char × List String)
  inbound : String → Nat

/-- `record_error`. -/
def pushErr (st : MainState) (p : String) (code : String) : MainState :=
  ⟨st.errors ++ [(p, code)], st.ids, st.inbound⟩

/-- `ids.setdefault(fm.id, []).append(p)`. -/
def idsAppend (ids : List (List Char × List String)) (k : List Char) (p : String) :
    List (List Char × List String) :=
  match ids with
  | [] => [(k, [p])]
  | (k', ps) :: rest => if k' = k then (k', ps ++ [p]) :: rest else (k', ps) :: idsAppend rest k p

/-- `kv.get(k)` for the four-key dict built in `main`. -/
def kvGet (fm : Frontmatter) (k : String) : Option (List Char) :=
  if k = "id" then fm.id
  else if k = "type" then fm.type
  else if k = "title" then fm.title
  else if k = "status" then fm.status
  else none

/-- Python falsiness of `kv.get(k)` (`None` or the empty string). -/
def isMissing (v : Option (List Char)) : Bool :=
  match v with
  | none => true
  | some s => s = []

/-- Python truthiness of `fm.id` (`None` and `""` are falsy). -/
def truthy (v : Option (List Char)) : Bool :=
  match v with
  | none => false
  | some s => ¬ s = []

/-- Body of `main`'s inner loop over `_extract_markdown_link_targets(text)`:
raw external targets are skipped; the normalised target must be non-empty and
end in `.md`; then the broken-link check and the inbound bump. -/
def targetStep (env : Env) (args : Args) (mdFiles : List String) (p : String)
    (st : MainState) (raw : List Char) : MainState :=
  if isExternalLink raw then st
  else
    let target := normalizeLinkTarget raw
    if target = [] then st
    else if ¬ endsWithMd target then st
    else
      let resolved := env.resolve p target
      let st1 :=
        if args.check_links = true ∧ env.fsExists resolved = false then
          pushErr st p ("broken_link:" ++ String.mk target)
        else st
      if args.check_orphans = true ∧ resolved ∈ mdFiles ∧ ¬ resolved = p then
        ⟨st1.errors, st1.ids, fun d => if d = resolved then st1.inbound d + 1 else st1.inbound d⟩
      else st1

/-- Body of `main`'s outer loop over `sorted(md_files)`. -/
def docStep (env : Env) (args : Args) (mdFiles : List String)
    (st : MainState) (p : String) : MainState :=
  match readFrontmatter (env.content p) with
  | (_, some err) => pushErr st p err
  | (some fm, none) =>
    let st1 := args.required.foldl
      (fun s k => if isMissing (kvGet fm k) then pushErr s p ("missing_" ++ k) else s) st
    let st2 :=
      if truthy fm.id then ⟨st1.errors, idsAppend st1.ids (fm.id.getD []) p, st1.inbound⟩
      else st1
    if args.check_links || args.check_orphans then
      match env.content p with
      | none => pushErr st2 p "read_error"
      | some text => (extractTargets text).foldl (targetStep env args mdFiles p) st2
    else st2
  | (none, none) => st  -- unreachable: `_read_frontmatter` always returns a value or an error

/-- The total order used for `sorted(md_files)`: lexicographic on the
character lists (pathlib's ordering differs in corner cases, but every claim
is insensitive to which total order is used). -/
def pathLe (a b : String) : Prop :=
  a.data ≤ b.data

instance : IsTotal String pathLe :=
  ⟨fun a b => le_total a.data b.data⟩

instance : IsTrans String pathLe :=
  ⟨fun _ _ _ h1 h2 => le_trans h1 h2⟩

instance : IsAntisymm String pathLe :=
  ⟨fun _ _ h1 h2 => String.ext (le_antisymm h1 h2)⟩

instance : DecidableRel pathLe :=
  fun a b => inferInstanceAs (Decidable (a.data ≤ b.data))

/-- `sorted(md_files)`. -/
def sortPaths (l : List String) : List String :=
  l.insertionSort pathLe

/-- The state after the per-document pass. -/
def scanState (env : Env) (args : Args) (mdFiles : List String) : MainState :=
  (sortPaths mdFiles).foldl (docStep env args mdFiles) ⟨[], [], fun _ => 0⟩

/-- The orphan pass appended after the per-document pass. -/
def finalState (env : Env) (args : Args) (mdFiles : List String) : MainState :=
  let st := scanState env args mdFiles
  if args.check_orphans then
    (sortPaths mdFiles).foldl
      (fun s p => if p = env.rootIndex then s
                  else if st.inbound p = 0 then pushErr s p "orphan_node" else s) st
  else st

/-- The `errors` list at reporting time (document findings plus orphans). -/
def mainErrors (env : Env) (args : Args) (mdFiles : List String) : List (String × String) :=
  (finalState env args mdFiles).errors

/-- `dup_ids`: identifier-index entries claimed by more than one document. -/
def mainDupIds (env : Env) (args : Args) (mdFiles : List String) :
    List (List Char × List String) :=
  (scanState env args mdFiles).ids.filter (fun kv => 2 ≤ kv.2.length)

/-- The final inbound-count table. -/
def mainInbound (env : Env) (args : Args) (mdFiles : List String) : String → Nat :=
  (scanState env args mdFiles).inbound

/-- Lexicographic `Bool` order on id strings for `sorted(dup_ids.items())`
(ids are unique dict keys, so the tuple comparison never reaches the paths). -/
def keyLe (a b : List Char) : Bool :=
  match a, b with
  | [], _ => true
  | _ :: _, [] => false
  | x :: xs, y :: ys => if x = y then keyLe xs ys else decide (x < y)

/-- The duplicate-ids report section body. -/
def dupLines (env : Env) (dups : List (List Char × List String)) : List String :=
  (dups.insertionSort (fun a b => keyLe a.1 b.1 = true)).foldr
    (fun kv acc => ("- id: " ++ String.mk kv.1) :: kv.2.map (fun p => "  - " ++ env.render p) ++ acc) []

/-- The success line printed when there are no findings. -/
def okLine (env : Env) (mdFiles : List String) : String :=
  "OK: " ++ toString mdFiles.length ++ " markdown files under " ++ env.rootStr

/-- `main`: exit code and the sequence of `safe_print` calls (standard
output; the root-missing message goes to standard error and is not part of
the report).  `BrokenPipeError` handling is an IO concern outside the model. -/
def runMain (env : Env) (mdFiles : List String) (args : Args) : Nat × List String :=
  if env.rootExists = false then (2, [])
  else
    let errors := mainErrors env args mdFiles
    let dups := mainDupIds env args mdFiles
    let out1 :=
      if ¬ errors = [] then
        "Frontmatter issues:" :: errors.map (fun pe => "- " ++ env.render pe.1 ++ ": " ++ pe.2)
      else []
    let out2 :=
      if ¬ dups = [] then ("\nDuplicate ids:") :: dupLines env dups
      else []
    if ¬ errors = [] ∨ ¬ dups = [] then (1, out1 ++ out2)
    else (0, [okLine env mdFiles])

/-! ## Concrete runs used by counterexamples and witnesses

`resolve` models POSIX resolution for a flat directory `r/`: every relative
target resolves into `r/`.  `render` is the identity (rendering is irrelevant
to the claims below). -/

/-- Default switches: `--check-links --check-orphans --required id,type,title,status`. -/
def argsDefault : Args :=
  ⟨true, true, ["id", "type", "title", "status"]⟩

/-- The empty loop state. -/
def st0 : MainState :=
  ⟨[], [], fun _ => 0⟩

/-- Two documents: `r/a.md` has no frontmatter but links to `r/b.md`;
`r/b.md` has complete metadata and no links.  The root index is absent. -/
def envA : Env where
  rootExists := true
  content := fun p =>
    if p = "r/a.md" then some ("x [l](b.md)\n".data)
    else if p = "r/b.md" then
      some ("---\nid: b\ntype: t\ntitle: B\nstatus: s\n---\nhello\n".data)
    else none
  fsExists := fun p => p = "r/a.md" ∨ p = "r/b.md"
  resolve := fun _ t => "r/" ++ String.mk t
  render := fun p => p
  rootIndex := "r/index.md"
  rootStr := "/r"

/-- One valid document whose only link is percent-encoded so that its raw
form is not external but its normalised form is. -/
def envB : Env where
  rootExists := true
  content := fun p =>
    if p = "r/a.md" then
      some ("---\nid: a\ntype: t\ntitle: A\nstatus: s\n---\n[x](https%3A//e.com/x.md)\n".data)
    else none
  fsExists := fun p => p = "r/a.md"
  resolve := fun _ t => "r/" ++ String.mk t
  render := fun p => p
  rootIndex := "r/a.md"
  rootStr := "/r"

/-- One valid document containing two link occurrences with the same missing
target. -/
def envD : Env where
  rootExists := true
  content := fun p =>
    if p = "r/a.md" then
      some ("---\nid: a\ntype: t\ntitle: A\nstatus: s\n---\n[x](m.md) [y](m.md)\n".data)
    else none
  fsExists := fun p => p = "r/a.md"
  resolve := fun _ t => "r/" ++ String.mk t
  render := fun p => p
  rootIndex := "r/a.md"
  rootStr := "/r"

/-- A single fully valid root-index document. -/
def envOk : Env where
  rootExists := true
  content := fun p =>
    if p = "r/index.md" then
      some ("---\nid: idx\ntype: index\ntitle: Root\nstatus: ok\n---\nhello\n".data)
    else none
  fsExists := fun p => p = "r/index.md"
  resolve := fun _ t => "r/" ++ String.mk t
  render := fun p => p
  rootIndex := "r/index.md"
  rootStr := "/r"

/-! ## Characterisations of the scan

Per-document characterisations of what `docStep` appends to the errors list
and adds to the inbound table; they are proven equal to the fold below and
used to settle the graph claims. -/

/-- Did `_read_frontmatter` succeed for `p`? -/
def fmOk (env : Env) (p : String) : Bool :=
  match readFrontmatter (env.content p) with
  | (some _, none) => true
  | _ => false

/-- The extracted raw targets of `p` (empty when the file is unreadable). -/
def docTextTargets (env : Env) (p : String) : List (List Char) :=
  match env.content p with
  | none => []
  | some text => extractTargets text

/-- Does this raw occurrence bump the inbound count of `d`?  (The inbound
branch of `targetStep` with target `d`.) -/
def incsTo (env : Env) (args : Args) (mdl : List String) (p d : String)
    (raw : List Char) : Bool :=
  if isExternalLink raw then false
  else if normalizeLinkTarget raw = [] then false
  else if ¬ endsWithMd (normalizeLinkTarget raw) then false
  else decide (args.check_orphans = true ∧
    env.resolve p (normalizeLinkTarget raw) ∈ mdl ∧
    ¬ env.resolve p (normalizeLinkTarget raw) = p ∧
    env.resolve p (normalizeLinkTarget raw) = d)

/-- The findings appended by `targetStep` for one raw occurrence. -/
def targetErrs (env : Env) (args : Args) (p : String) (raw : List Char) :
    List (String × String) :=
  if isExternalLink raw then []
  else if normalizeLinkTarget raw = [] then []
  else if ¬ endsWithMd (normalizeLinkTarget raw) then []
  else if args.check_links = true ∧
      env.fsExists (env.resolve p (normalizeLinkTarget raw)) = false then
    [(p, "broken_link:" ++ String.mk (normalizeLinkTarget raw))]
  else []

/-- The findings appended by `docStep` for one document. -/
def docErrors (env : Env) (args : Args) (p : String) : List (String × String) :=
  match readFrontmatter (env.content p) with
  | (_, some e) => [(p, e)]
  | (some fm, none) =>
    (args.required.filter (fun k => isMissing (kvGet fm k))).map (fun k => (p, "missing_" ++ k))
    ++ (if args.check_links || args.check_orphans then
          match env.content p with
          | none => [(p, "read_error")]
          | some text => ((extractTargets text).map (targetErrs env args p)).flatten
        else [])
  | (none, none) => []

/-- The inbound contribution of document `p` to the count of `d`. -/
def docIncs (env : Env) (args : Args) (mdl : List String) (p d : String) : Nat :=
  match readFrontmatter (env.content p) with
  | (some _, none) =>
    if args.check_links || args.check_orphans then
      match env.content p with
      | none => 0
      | some text => (extractTargets text).countP (incsTo env args mdl p d)
    else 0
  | _ => 0

/-- The number of link occurrences in `p` whose normalised target is a
non-empty `.md` path resolving to `d`.  This is the spec-side counting of
"resolved internal link occurrences targeting `d`" used by the inbound
claims. -/
def linksToCount (env : Env) (p d : String) : Nat :=
  (docTextTargets env p).countP (fun raw =>
    !(isExternalLink raw) && !(decide (normalizeLinkTarget raw = [])) &&
    endsWithMd (normalizeLinkTarget raw) &&
    (env.resolve p (normalizeLinkTarget raw) == d))

/-- Follows the amended C2's words: the inbound count of `d` is the number of
qualifying link occurrences summed over discovered documents other than `d`
whose metadata parse succeeded. -/
def inboundSpecCount (env : Env) (args : Args) (l : List String) (d : String) : Nat :=
  ((sortPaths l).map (fun p =>
    if p = d then 0
    else if fmOk env p = false then 0
    else linksToCount env p d)).sum

/-- Follows the amended C6's words: the number of link occurrences in `p`
that normalise to `t` and fail the existence check. -/
def brokenSpecCount (env : Env) (args : Args) (p : String) (t : List Char) : Nat :=
  if fmOk env p = false then 0
  else if (args.check_links || args.check_orphans) = false then 0
  else (docTextTargets env p).countP (fun raw =>
    !(isExternalLink raw) && !(decide (normalizeLinkTarget raw = [])) &&
    endsWithMd (normalizeLinkTarget raw) && (normalizeLinkTarget raw == t) &&
    !(env.fsExists (env.resolve p (normalizeLinkTarget raw))))

/-- The findings appended by the orphan pass. -/
def orphanErrors (env : Env) (args : Args) (l : List String) : List (String × String) :=
  if args.check_orphans then
    ((sortPaths l).filter (fun p =>
      decide (¬ p = env.rootIndex ∧ (scanState env args l).inbound p = 0))).map
      (fun p => (p, "orphan_node"))
  else []

/-! ## Supporting lemmas -/

theorem isPrefixOf_append_left {a b s : List Char} (h : (a ++ b).isPrefixOf s = true) :
    a.isPrefixOf s = true := by
  induction a generalizing s with
  | nil => simp [List.isPrefixOf]
  | cons x xs ih =>
    cases s with
    | nil => simp [List.isPrefixOf] at h
    | cons y ys =>
      simp only [List.cons_append, List.isPrefixOf, Bool.and_eq_true, beq_iff_eq] at h ⊢
      exact ⟨h.1, ih h.2⟩

theorem findSub_none_iff (pat : List Char) (s : List Char) :
    findSub pat s = none ↔ ∀ i, pat.isPrefixOf (s.drop i) = false := by
  induction s with
  | nil =>
    rw [findSub]
    cases hb : pat.isPrefixOf ([] : List Char) with
    | true =>
      simp only [hb, if_true]
      constructor
      · intro hc
        exact absurd hc (by simp)
      · intro hall
        have := hall 0
        rw [List.drop_nil, hb] at this
        exact absurd this (by simp)
    | false =>
      simp only [hb, Bool.false_eq_true, if_false]
      constructor
      · intro _ i
        rw [List.drop_nil]
        exact hb
      · intro _
        trivial
  | cons c r ih =>
    rw [findSub]
    by_cases hp : pat.isPrefixOf (c :: r) = true
    · simp only [hp, if_true]
      constructor
      · intro h; exact absurd h (by simp)
      · intro h; exact absurd (h 0) (by simpa using hp)
    · simp only [Bool.not_eq_true] at hp
      simp only [hp, Bool.false_eq_true, if_false]
      constructor
      · intro h i
        cases i with
        | zero => simpa using hp
        | succ j =>
          rw [List.drop_succ_cons]
          exact (ih.mp (by simpa using h)) j
      · intro h
        simp only [Option.map_eq_none']
        exact ih.mpr (fun j => by simpa using h (j + 1))

theorem findSubFrom_none_iff (pat : List Char) (s : List Char) (start : Nat) :
    findSubFrom pat s start = none ↔ ∀ i, start ≤ i → pat.isPrefixOf (s.drop i) = false := by
  rw [findSubFrom]
  simp only [Option.map_eq_none']
  rw [findSub_none_iff]
  constructor
  · intro h i hi
    have := h (i - start)
    rw [List.drop_drop, show start + (i - start) = i from by omega] at this
    exact this
  · intro h j
    rw [List.drop_drop]
    exact h (start + j) (Nat.le_add_right _ _)

/-! ## Claim C1 -/

/-- **C1, counterexample.**  The claim asserts that a document whose opening
delimiter line is immediately followed by a solo closing delimiter line
parses successfully.  The document `"---\n---"` is exactly that shape (its
second `splitlines` line is the bare delimiter, at end of file), yet
`_read_frontmatter` reports `unterminated_frontmatter`: both `find` calls
start at offset 4, past the only `"\n"` of the text. -/
theorem c1_counterexample :
    readFrontmatter (some ("---\n---".data)) = (none, some "unterminated_frontmatter") ∧
    splitlinesPy ("---\n---".data) = [FM_DELIM, FM_DELIM] := by
  constructor
  · rfl
  · rfl

/-- **C1, amended.**  For a document that begins with the opening delimiter
line, `_read_frontmatter` reports `unterminated_frontmatter` if and only if
the four-character string `"\n---"` occurs nowhere at offset ≥ 4 — that is,
no line from the *third* physical line onward begins with `---`.  (This
differs from the claim in both directions: an empty metadata block
`"---\n---"` or `"---\n---\n"` is reported unterminated even though a solo
closing delimiter line is present, because the search starts at offset 4;
and a later line beginning with `---` terminates the block even when it has
trailing characters, e.g. `"----"`, so no solo delimiter line is needed.) -/
theorem c1_unterminated_iff (t : List Char)
    (h : ("---\n".data).isPrefixOf t = true) :
    (readFrontmatter (some t)).2 = some "unterminated_frontmatter" ↔
      ∀ i, i < t.length → 4 ≤ i → ('\n' :: FM_DELIM).isPrefixOf (t.drop i) = false := by
  have hfm : (FM_DELIM ++ ['\n']).isPrefixOf t = true := h
  have hlen : FM_DELIM.length + 1 = 4 := rfl
  have hext : (∀ i, i < t.length → 4 ≤ i → ('\n' :: FM_DELIM).isPrefixOf (t.drop i) = false) ↔
      (∀ i, 4 ≤ i → ('\n' :: FM_DELIM).isPrefixOf (t.drop i) = false) := by
    constructor
    · intro hb i hi
      by_cases hlt : i < t.length
      · exact hb i hlt hi
      · rw [List.drop_eq_nil_of_le (Nat.le_of_not_lt hlt)]
        rfl
    · intro hb i _ hi
      exact hb i hi
  rw [hext]
  rw [readFrontmatter]
  simp only [hfm, not_true_eq_false, if_false]
  rw [hlen]
  rcases h1 : findSubFrom ('\n' :: FM_DELIM ++ ['\n']) t 4 with _ | e1
  · rcases h2 : findSubFrom ('\n' :: FM_DELIM) t 4 with _ | e2
    · simp only [h1, h2]
      constructor
      · intro _
        exact (findSubFrom_none_iff _ _ _).mp h2
      · intro _
        trivial
    · simp only [h1, h2]
      constructor
      · intro hc
        exact absurd hc (by simp)
      · intro hall
        have := (findSubFrom_none_iff ('\n' :: FM_DELIM) t 4).mpr hall
        rw [h2] at this
        exact absurd this (by simp)
  · simp only [h1]
    constructor
    · intro hc
      exact absurd hc (by simp)
    · intro hall
      -- an occurrence of "\n---\n" would give an occurrence of "\n---"
      have hnone : findSubFrom ('\n' :: FM_DELIM ++ ['\n']) t 4 = none := by
        rw [findSubFrom, Option.map_eq_none', findSub_none_iff]
        intro j
        by_cases hp : ('\n' :: FM_DELIM ++ ['\n']).isPrefixOf ((t.drop 4).drop j) = true
        · have := isPrefixOf_append_left (a := '\n' :: FM_DELIM) (b := ['\n']) hp
          rw [List.drop_drop] at this
          have hf := hall (4 + j) (Nat.le_add_right _ _)
          rw [hf] at this
          exact absurd this (by simp)
        · simp only [Bool.not_eq_true] at hp
          exact hp
      rw [hnone] at h1
      exact absurd h1 (by simp)

/-- **C1, witness.**  A concrete unterminated document: `"---\nid: x"`. -/
theorem c1_witness :
    ("---\n".data).isPrefixOf ("---\nid: x".data) = true ∧
    (readFrontmatter (some ("---\nid: x".data))).2 = some "unterminated_frontmatter" :=
  ⟨by decide,
   (c1_unterminated_iff ("---\nid: x".data) (by decide)).mpr (by decide)⟩

/-! ## Claim C3 -/

/-- **C3, counterexample.**  The claim says External-vs-Internal
classification is applied to the *normalised* capture.  But `main` calls
`_is_external_link(raw_target)` on the raw capture, before normalisation:
the capture `https%3A//e.com/x.md` normalises (by percent-decoding) to
`https://e.com/x.md`, which is External per the stated predicate, yet the
linter processes it and records a `broken_link` finding for it. -/
theorem c3_counterexample :
    isExternalLink (normalizeLinkTarget ("https%3A//e.com/x.md".data)) = true ∧
    isExternalLink ("https%3A//e.com/x.md".data) = false ∧
    ("r/a.md", "broken_link:https://e.com/x.md") ∈ mainErrors envB argsDefault ["r/a.md"] := by
  refine ⟨by decide, by decide, ?_⟩
  decide

/-- **C3, amended.**  Classification is applied to the *raw* captured target
(already whitespace-trimmed by the extractor), before any normalisation: a
capture whose raw form is external (leading `#`, contains `://`, or leading
`mailto:`/`tel:`, case-insensitively) is excluded from broken-link and
inbound processing entirely — the per-target loop body leaves the state
untouched.  A raw-internal capture proceeds to normalisation even when its
normalised form looks external. -/
theorem c3_external_raw_skipped (env : Env) (args : Args) (mdl : List String)
    (p : String) (st : MainState) (raw : List Char)
    (h : isExternalLink raw = true) :
    targetStep env args mdl p st raw = st := by
  unfold targetStep
  simp [h]

/-- **C3, witness.** -/
theorem c3_witness :
    isExternalLink ("#top".data) = true ∧
    targetStep envB argsDefault ["r/a.md"] "r/a.md" st0 ("#top".data) = st0 :=
  ⟨by decide,
   c3_external_raw_skipped envB argsDefault ["r/a.md"] "r/a.md" st0 ("#top".data) (by decide)⟩

/-! ## Claim C7 -/

/-- **C7.**  Exit-code selection: `2` exactly when the scan root does not
exist; otherwise `1` exactly when at least one finding (a per-document error,
including orphans, or a duplicate id) was produced; otherwise `0` with the
single success line.  (`BrokenPipeError` termination while printing is an IO
concern outside the model.) -/
theorem c7_exit_codes (env : Env) (l : List String) (args : Args) :
    ((runMain env l args).1 = 2 ↔ env.rootExists = false) ∧
    (env.rootExists = true →
      (((runMain env l args).1 = 1) ↔
        ¬ (mainErrors env args l = [] ∧ mainDupIds env args l = []))) ∧
    (env.rootExists = true → mainErrors env args l = [] → mainDupIds env args l = [] →
      runMain env l args = (0, [okLine env l])) := by
  cases hre : env.rootExists with
  | false =>
    refine ⟨by simp [runMain, hre], by simp [hre], by simp [hre]⟩
  | true =>
    by_cases he : mainErrors env args l = [] <;>
      by_cases hd : mainDupIds env args l = [] <;>
        simp [runMain, hre, he, hd]

/-- **C7, witness.**  A clean single-document run exits `0` with the success
line. -/
theorem c7_witness :
    runMain envOk ["r/index.md"] argsDefault = (0, ["OK: 1 markdown files under /r"]) :=
  (c7_exit_codes envOk ["r/index.md"] argsDefault).2.2 (by decide) (by decide) (by decide)

/-! ## Claim C8 -/

theorem sortPaths_perm_eq {l l' : List String} (h : l.Perm l') :
    sortPaths l = sortPaths l' := by
  apply List.eq_of_perm_of_sorted (r := pathLe)
  · exact ((List.perm_insertionSort _ l).trans h).trans (List.perm_insertionSort _ l').symm
  · exact List.sorted_insertionSort _ l
  · exact List.sorted_insertionSort _ l'

theorem targetStep_mdl_congr (env : Env) (args : Args) {mdl mdl' : List String}
    (hm : mdl.Perm mdl') (p : String) (st : MainState) (raw : List Char) :
    targetStep env args mdl p st raw = targetStep env args mdl' p st raw := by
  unfold targetStep
  simp only [hm.mem_iff]

theorem docStep_mdl_congr (env : Env) (args : Args) {mdl mdl' : List String}
    (hm : mdl.Perm mdl') (st : MainState) (p : String) :
    docStep env args mdl st p = docStep env args mdl' st p := by
  unfold docStep
  generalize env.content p = c
  generalize readFrontmatter c = rf
  rcases rf with ⟨fm, err⟩
  cases fm with
  | none =>
    cases err with
    | some e => rfl
    | none => rfl
  | some f =>
    cases err with
    | some e => rfl
    | none =>
      by_cases hcl : (args.check_links || args.check_orphans) = true
      · simp only [hcl, if_true]
        cases c with
        | none => rfl
        | some text =>
          exact List.foldl_ext _ _ _
            (fun s raw _ => targetStep_mdl_congr env args hm p s raw)
      · simp only [Bool.not_eq_true] at hcl
        simp only [hcl, Bool.false_eq_true, if_false]

/-- **C8.**  Determinism with respect to the only run-order freedom in the
model: the directory walk may enumerate the discovered files in any order,
and the report and exit code are unchanged — `main` sorts the file list
before both passes, membership tests and the file count are
order-insensitive, and everything else is a pure function of the sorted
list.  Two runs over an unchanged tree with equal arguments are therefore
byte-identical (the model itself is a function, so run-to-run equality for
a fixed enumeration is definitional). -/
theorem c8_deterministic (env : Env) (args : Args) {l l' : List String}
    (h : l.Perm l') :
    runMain env l args = runMain env l' args := by
  have hscan : scanState env args l = scanState env args l' := by
    unfold scanState
    rw [sortPaths_perm_eq h]
    exact List.foldl_ext _ _ _ (fun st p _ => docStep_mdl_congr env args h st p)
  have hfinal : finalState env args l = finalState env args l' := by
    unfold finalState
    rw [sortPaths_perm_eq h, hscan]
  unfold runMain mainErrors mainDupIds okLine
  rw [hfinal, hscan, h.length_eq]

/-- **C8, witness.**  A two-file tree enumerated in both orders. -/
theorem c8_witness :
    runMain envA ["r/a.md", "r/b.md"] argsDefault =
      runMain envA ["r/b.md", "r/a.md"] argsDefault :=
  c8_deterministic envA argsDefault (by decide)

/-! ## Decomposition of the scan fold -/

theorem targetStep_ids (env : Env) (args : Args) (mdl : List String) (p : String)
    (st : MainState) (raw : List Char) :
    (targetStep env args mdl p st raw).ids = st.ids := by
  simp only [targetStep]
  split_ifs <;> simp [pushErr]

theorem targetStep_errors (env : Env) (args : Args) (mdl : List String) (p : String)
    (st : MainState) (raw : List Char) :
    (targetStep env args mdl p st raw).errors = st.errors ++ targetErrs env args p raw := by
  simp only [targetStep, targetErrs]
  split_ifs <;> simp [pushErr]

theorem targetStep_inbound (env : Env) (args : Args) (mdl : List String) (p d : String)
    (st : MainState) (raw : List Char) :
    (targetStep env args mdl p st raw).inbound d =
      st.inbound d + (if incsTo env args mdl p d raw = true then 1 else 0) := by
  simp only [targetStep, incsTo]
  by_cases hext : isExternalLink raw = true
  · simp [hext]
  · simp only [Bool.not_eq_true] at hext
    simp only [hext, Bool.false_eq_true, if_false]
    by_cases hemp : normalizeLinkTarget raw = []
    · simp [hemp]
    · simp only [hemp, if_false, if_neg hemp]
      by_cases hmd : endsWithMd (normalizeLinkTarget raw) = true
      · simp only [hmd, not_true_eq_false, if_false]
        by_cases hbump : args.check_orphans = true ∧
            env.resolve p (normalizeLinkTarget raw) ∈ mdl ∧
            ¬ env.resolve p (normalizeLinkTarget raw) = p
        · by_cases hd : env.resolve p (normalizeLinkTarget raw) = d
          · simp [hbump, hd, pushErr]
            split_ifs <;> simp [pushErr]
          · simp only [if_pos hbump]
            have : ¬ (args.check_orphans = true ∧
                env.resolve p (normalizeLinkTarget raw) ∈ mdl ∧
                ¬ env.resolve p (normalizeLinkTarget raw) = p ∧
                env.resolve p (normalizeLinkTarget raw) = d) := by
              intro hcon
              exact hd hcon.2.2.2
            simp only [this, decide_eq_true_eq]
            split_ifs <;> simp_all [pushErr]
        · have : ¬ (args.check_orphans = true ∧
              env.resolve p (normalizeLinkTarget raw) ∈ mdl ∧
              ¬ env.resolve p (normalizeLinkTarget raw) = p ∧
              env.resolve p (normalizeLinkTarget raw) = d) := by
            intro hcon
            exact hbump ⟨hcon.1, hcon.2.1, hcon.2.2.1⟩
          simp only [if_neg hbump, this, decide_eq_true_eq]
          split_ifs <;> simp_all [pushErr]
      · simp [hmd]

theorem targetsFold_errors (env : Env) (args : Args) (mdl : List String) (p : String)
    (ts : List (List Char)) (st : MainState) :
    ((ts.foldl (targetStep env args mdl p) st).errors)
      = st.errors ++ (ts.map (targetErrs env args p)).flatten := by
  induction ts generalizing st with
  | nil => simp
  | cons raw ts ih =>
    simp [ih, targetStep_errors, List.append_assoc]

theorem targetsFold_inbound (env : Env) (args : Args) (mdl : List String) (p d : String)
    (ts : List (List Char)) (st : MainState) :
    ((ts.foldl (targetStep env args mdl p) st).inbound d)
      = st.inbound d + ts.countP (incsTo env args mdl p d) := by
  induction ts generalizing st with
  | nil => simp
  | cons raw ts ih =>
    simp only [List.foldl_cons, List.countP_cons, ih, targetStep_inbound]
    by_cases h : incsTo env args mdl p d raw = true <;> simp [h] <;> omega

theorem targetsFold_ids (env : Env) (args : Args) (mdl : List String) (p : String)
    (ts : List (List Char)) (st : MainState) :
    ((ts.foldl (targetStep env args mdl p) st).ids) = st.ids := by
  induction ts generalizing st with
  | nil => simp
  | cons raw ts ih => simp [ih, targetStep_ids]

theorem reqFold_errors (p : String) (fm : Frontmatter) (ks : List String) (st : MainState) :
    ((ks.foldl (fun s k => if isMissing (kvGet fm k) then pushErr s p ("missing_" ++ k) else s) st).errors)
      = st.errors ++ (ks.filter (fun k => isMissing (kvGet fm k))).map (fun k => (p, "missing_" ++ k)) := by
  induction ks generalizing st with
  | nil => simp
  | cons k ks ih =>
    simp only [List.foldl_cons, List.filter_cons]
    by_cases hk : isMissing (kvGet fm k) = true
    · rw [if_pos hk, ih]
      simp [hk, pushErr, List.append_assoc]
    · rw [if_neg hk, ih]
      simp only [Bool.not_eq_true] at hk
      simp [hk]

theorem reqFold_inbound (p : String) (fm : Frontmatter) (ks : List String) (st : MainState) :
    ((ks.foldl (fun s k => if isMissing (kvGet fm k) then pushErr s p ("missing_" ++ k) else s) st).inbound)
      = st.inbound := by
  induction ks generalizing st with
  | nil => simp
  | cons k ks ih =>
    simp only [List.foldl_cons]
    by_cases hk : isMissing (kvGet fm k) = true
    · rw [if_pos hk, ih]
      simp [pushErr]
    · rw [if_neg hk, ih]

theorem idsStep_errors (st1 : MainState) (v : Option (List Char)) (p : String) :
    (if truthy v = true then
       (⟨st1.errors, idsAppend st1.ids (v.getD []) p, st1.inbound⟩ : MainState)
     else st1).errors = st1.errors := by
  split <;> rfl

theorem idsStep_inbound (st1 : MainState) (v : Option (List Char)) (p : String) :
    (if truthy v = true then
       (⟨st1.errors, idsAppend st1.ids (v.getD []) p, st1.inbound⟩ : MainState)
     else st1).inbound = st1.inbound := by
  split <;> rfl

theorem pushErr_errors (st : MainState) (p : String) (c : String) :
    (pushErr st p c).errors = st.errors ++ [(p, c)] := rfl

theorem pushErr_inbound (st : MainState) (p : String) (c : String) :
    (pushErr st p c).inbound = st.inbound := rfl

theorem docStep_errors (env : Env) (args : Args) (mdl : List String)
    (st : MainState) (p : String) :
    (docStep env args mdl st p).errors = st.errors ++ docErrors env args p := by
  unfold docStep docErrors
  generalize env.content p = c
  generalize readFrontmatter c = rf
  rcases rf with ⟨fm, err⟩
  cases fm with
  | none =>
    cases err with
    | some e => simp [pushErr]
    | none => simp
  | some f =>
    cases err with
    | some e => simp [pushErr]
    | none =>
      by_cases hcl : (args.check_links || args.check_orphans) = true
      · simp only [hcl, if_true]
        cases c with
        | none =>
          rw [pushErr_errors, idsStep_errors, reqFold_errors, List.append_assoc]
        | some text =>
          rw [targetsFold_errors, idsStep_errors, reqFold_errors, List.append_assoc]
      · simp only [Bool.not_eq_true] at hcl
        simp only [hcl, Bool.false_eq_true, if_false]
        rw [idsStep_errors, reqFold_errors, List.append_nil]

theorem docStep_inbound (env : Env) (args : Args) (mdl : List String)
    (st : MainState) (p d : String) :
    (docStep env args mdl st p).inbound d = st.inbound d + docIncs env args mdl p d := by
  unfold docStep docIncs
  generalize env.content p = c
  generalize readFrontmatter c = rf
  rcases rf with ⟨fm, err⟩
  cases fm with
  | none =>
    cases err with
    | some e => simp [pushErr]
    | none => simp
  | some f =>
    cases err with
    | some e => simp [pushErr]
    | none =>
      by_cases hcl : (args.check_links || args.check_orphans) = true
      · simp only [hcl, if_true]
        cases c with
        | none =>
          rw [pushErr_inbound, idsStep_inbound, reqFold_inbound]
          simp
        | some text =>
          rw [targetsFold_inbound, idsStep_inbound, reqFold_inbound]
      · simp only [Bool.not_eq_true] at hcl
        simp only [hcl, Bool.false_eq_true, if_false]
        rw [idsStep_inbound, reqFold_inbound]
        omega

theorem scanState_errors (env : Env) (args : Args) (l : List String) :
    (scanState env args l).errors = ((sortPaths l).map (docErrors env args)).flatten := by
  unfold scanState
  generalize sortPaths l = ps
  suffices h : ∀ st : MainState, (ps.foldl (docStep env args l) st).errors
      = st.errors ++ (ps.map (docErrors env args)).flatten by
    simpa using h ⟨[], [], fun _ => 0⟩
  induction ps with
  | nil => intro st; simp
  | cons q ps ih =>
    intro st
    simp [ih, docStep_errors, List.append_assoc]

theorem scanState_inbound (env : Env) (args : Args) (l : List String) (d : String) :
    (scanState env args l).inbound d
      = ((sortPaths l).map (fun p => docIncs env args l p d)).sum := by
  unfold scanState
  generalize sortPaths l = ps
  suffices h : ∀ st : MainState, (ps.foldl (docStep env args l) st).inbound d
      = st.inbound d + (ps.map (fun p => docIncs env args l p d)).sum by
    simpa using h ⟨[], [], fun _ => 0⟩
  induction ps with
  | nil => intro st; simp
  | cons q ps ih =>
    intro st
    simp only [List.foldl_cons, List.map_cons, List.sum_cons, ih, docStep_inbound]
    omega

theorem finalState_errors (env : Env) (args : Args) (l : List String) :
    (finalState env args l).errors = (scanState env args l).errors ++ orphanErrors env args l := by
  unfold finalState orphanErrors
  by_cases hco : args.check_orphans = true
  · simp only [hco, if_true]
    generalize hst : scanState env args l = st
    generalize sortPaths l = ps
    suffices h : ∀ s : MainState, (ps.foldl
        (fun s p => if p = env.rootIndex then s
                    else if st.inbound p = 0 then pushErr s p "orphan_node" else s) s).errors
        = s.errors ++ (ps.filter (fun p =>
            decide (¬ p = env.rootIndex ∧ st.inbound p = 0))).map (fun p => (p, "orphan_node")) by
      exact h st
    induction ps with
    | nil => intro s; simp
    | cons q ps ih =>
      intro s
      simp only [List.foldl_cons, List.filter_cons]
      by_cases hq : q = env.rootIndex
      · rw [if_pos hq, ih]
        simp [hq]
      · by_cases hz : st.inbound q = 0
        · rw [if_neg hq, if_pos hz, ih, pushErr_errors]
          simp [hq, hz, List.append_assoc]
        · rw [if_neg hq, if_neg hz, ih]
          simp [hq, hz]
  · simp only [Bool.not_eq_true] at hco
    simp [hco]

theorem mainErrors_eq (env : Env) (args : Args) (l : List String) :
    mainErrors env args l
      = ((sortPaths l).map (docErrors env args)).flatten ++ orphanErrors env args l := by
  rw [mainErrors, finalState_errors, scanState_errors]

theorem docErrors_fst (env : Env) (args : Args) (p : String) :
    ∀ x ∈ docErrors env args p, x.1 = p := by
  intro x hx
  unfold docErrors at hx
  revert hx
  generalize env.content p = c
  generalize readFrontmatter c = rf
  intro hx
  rcases rf with ⟨fm, err⟩
  cases fm with
  | none =>
    cases err with
    | some e => simp at hx; simp [hx]
    | none => simp at hx
  | some f =>
    cases err with
    | some e => simp at hx; simp [hx]
    | none =>
      simp only [List.mem_append] at hx
      rcases hx with hx | hx
      · simp only [List.mem_map] at hx
        obtain ⟨k, _, hk⟩ := hx
        simp [← hk]
      · split at hx
        · cases c with
          | none => simp at hx; simp [hx]
          | some text =>
            simp only [List.mem_flatten] at hx
            obtain ⟨es, hes, hxes⟩ := hx
            simp only [List.mem_map] at hes
            obtain ⟨raw, _, hraw⟩ := hes
            subst hraw
            unfold targetErrs at hxes
            split_ifs at hxes <;> simp_all
        · simp at hx

/-! ## Shape lemmas for `_read_frontmatter` results -/

theorem readFrontmatter_err_shape {c : Option (List Char)} {x : Option Frontmatter}
    {e : String} (h : readFrontmatter c = (x, some e)) :
    e = "read_error" ∨ e = "missing_frontmatter" ∨ e = "unterminated_frontmatter" := by
  cases c with
  | none =>
    unfold readFrontmatter at h
    simp only [Prod.mk.injEq, Option.some.injEq] at h
    exact Or.inl h.2.symm
  | some text =>
    simp only [readFrontmatter] at h
    by_cases hp : (FM_DELIM ++ ['\n']).isPrefixOf text = true
    · simp only [hp, not_true_eq_false, if_false] at h
      rcases h1 : findSubFrom ('\n' :: FM_DELIM ++ ['\n']) text (FM_DELIM.length + 1) with _ | e1
      · rw [h1] at h
        rcases h2 : findSubFrom ('\n' :: FM_DELIM) text (FM_DELIM.length + 1) with _ | e2
        · rw [h2] at h
          simp only [Prod.mk.injEq, Option.some.injEq] at h
          exact Or.inr (Or.inr h.2.symm)
        · rw [h2] at h
          simp only [Prod.mk.injEq] at h
          exact absurd h.2 (by simp)
      · rw [h1] at h
        simp only [Prod.mk.injEq] at h
        exact absurd h.2 (by simp)
    · simp only [Bool.not_eq_true] at hp
      simp only [hp, Bool.false_eq_true, not_false_eq_true, if_true, Prod.mk.injEq,
        Option.some.injEq] at h
      exact Or.inr (Or.inl h.2.symm)

theorem readFrontmatter_ok_content {c : Option (List Char)} {fm : Frontmatter}
    (h : readFrontmatter c = (some fm, none)) : ∃ text, c = some text := by
  cases c with
  | some text => exact ⟨text, rfl⟩
  | none => simp [readFrontmatter] at h

/-! ## Claim C2 -/

theorem incsTo_self_false (env : Env) (args : Args) (l : List String) (p : String)
    (raw : List Char) : incsTo env args l p p raw = false := by
  unfold incsTo
  split_ifs with h1 h2 h3
  · rfl
  · rfl
  · simp only [decide_eq_false_iff_not]
    intro hcon
    exact hcon.2.2.1 hcon.2.2.2
  · rfl

theorem incsTo_eq_spec (env : Env) (args : Args) (l : List String) (p d : String)
    (hco : args.check_orphans = true) (hd : d ∈ l) (hpd : ¬ p = d) (raw : List Char) :
    incsTo env args l p d raw =
      (!(isExternalLink raw) && !(decide (normalizeLinkTarget raw = [])) &&
       endsWithMd (normalizeLinkTarget raw) &&
       (env.resolve p (normalizeLinkTarget raw) == d)) := by
  unfold incsTo
  by_cases hext : isExternalLink raw = true
  · simp [hext]
  · simp only [Bool.not_eq_true] at hext
    simp only [hext, Bool.false_eq_true, if_false, Bool.not_false, Bool.true_and]
    by_cases hemp : normalizeLinkTarget raw = []
    · simp [hemp]
    · simp only [if_neg hemp]
      by_cases hmd : endsWithMd (normalizeLinkTarget raw) = true
      · simp only [hmd, not_true_eq_false, if_false, Bool.and_true]
        by_cases hres : env.resolve p (normalizeLinkTarget raw) = d
        · have hconj : args.check_orphans = true ∧
              env.resolve p (normalizeLinkTarget raw) ∈ l ∧
              ¬ env.resolve p (normalizeLinkTarget raw) = p ∧
              env.resolve p (normalizeLinkTarget raw) = d := by
            refine ⟨hco, hres ▸ hd, ?_, hres⟩
            rw [hres]
            intro hc
            exact hpd hc.symm
          rw [decide_eq_true hconj, hres]
          simp [hemp, hmd]
        · have hneg : ¬ (args.check_orphans = true ∧
              env.resolve p (normalizeLinkTarget raw) ∈ l ∧
              ¬ env.resolve p (normalizeLinkTarget raw) = p ∧
              env.resolve p (normalizeLinkTarget raw) = d) := by
            intro hcon
            exact hres hcon.2.2.2
          simp [hneg, hres, hemp, hmd]
      · simp [hmd]

theorem docIncs_eq_spec (env : Env) (args : Args) (l : List String) (p d : String)
    (hco : args.check_orphans = true) (hd : d ∈ l) :
    docIncs env args l p d =
      (if p = d then 0
       else if fmOk env p = false then 0
       else linksToCount env p d) := by
  unfold docIncs fmOk linksToCount docTextTargets
  rcases hrf : readFrontmatter (env.content p) with ⟨fm, err⟩
  cases fm with
  | none =>
    cases err with
    | some e => by_cases hpd : p = d <;> simp [hpd]
    | none => by_cases hpd : p = d <;> simp [hpd]
  | some f =>
    cases err with
    | some e => by_cases hpd : p = d <;> simp [hpd]
    | none =>
      have hgate : (args.check_links || args.check_orphans) = true := by
        rw [hco, Bool.or_true]
      obtain ⟨text, hc⟩ := readFrontmatter_ok_content hrf
      rw [hc]
      simp only [hgate, if_true]
      by_cases hpd : p = d
      · subst hpd
        have hz : (extractTargets text).countP (incsTo env args l p p) = 0 :=
          List.countP_eq_zero.mpr (fun raw _ => by
            simp [incsTo_self_false env args l p raw])
        simp [hz]
      · have hcnt : (extractTargets text).countP (incsTo env args l p d)
            = (extractTargets text).countP (fun raw =>
                !(isExternalLink raw) && !(decide (normalizeLinkTarget raw = [])) &&
                endsWithMd (normalizeLinkTarget raw) &&
                (env.resolve p (normalizeLinkTarget raw) == d)) :=
          List.countP_congr (fun raw _ => by
            rw [incsTo_eq_spec env args l p d hco hd hpd raw])
        simp [hpd, hcnt]

/-- **C2, counterexample.**  In `envA`, the discovered document `r/a.md`
contains a resolved internal link occurrence whose canonical target equals
`r/b.md`, and `r/b.md` is discovered and distinct from `r/a.md`, so the
claim requires `r/b.md`'s inbound count to be `1` (and then no orphan flag).
But `r/a.md` has no frontmatter, `main` does `continue` before link
extraction, the count stays `0`, and `r/b.md` is flagged `orphan_node`. -/
theorem c2_counterexample :
    docTextTargets envA "r/a.md" = ["b.md".data] ∧
    envA.resolve "r/a.md" ("b.md".data) = "r/b.md" ∧
    mainInbound envA argsDefault ["r/a.md", "r/b.md"] "r/b.md" = 0 ∧
    ("r/b.md", "orphan_node") ∈ mainErrors envA argsDefault ["r/a.md", "r/b.md"] := by
  refine ⟨by decide, by decide, by decide, by decide⟩

/-- The final inbound count of `d` is the sum over documents of the
per-document qualifying-occurrence count. -/
theorem mainInbound_eq_spec (env : Env) (args : Args) (l : List String) (d : String)
    (hco : args.check_orphans = true) (hd : d ∈ l) :
    mainInbound env args l d = inboundSpecCount env args l d := by
  unfold mainInbound inboundSpecCount
  rw [scanState_inbound]
  congr 1
  apply List.map_congr_left
  intro p _
  exact docIncs_eq_spec env args l p d hco hd

theorem orphan_mem_of_zero (env : Env) (args : Args) (l : List String) (d : String)
    (hco : args.check_orphans = true) (hd : d ∈ l) (hdr : ¬ d = env.rootIndex)
    (hz : (scanState env args l).inbound d = 0) :
    (d, "orphan_node") ∈ mainErrors env args l := by
  rw [mainErrors_eq]
  apply List.mem_append_right
  unfold orphanErrors
  simp only [hco, if_true]
  apply List.mem_map_of_mem
  rw [List.mem_filter]
  refine ⟨(List.perm_insertionSort _ l).mem_iff.mpr hd, ?_⟩
  simp only [decide_eq_true_eq]
  exact ⟨hdr, hz⟩

/-- **C2, amended.**  For every run with orphan checking enabled and every
discovered document `d`: `d`'s final inbound count equals the number of link
occurrences — counted per occurrence — in discovered documents *other than
`d` whose metadata parse succeeded*, whose normalised target is a non-empty
`.md` path and resolves to `d`'s canonical path (documents whose metadata
parse failed contribute nothing, resolved targets outside the discovered set
contribute nothing because membership in the table is required, and
self-links contribute nothing); and if `d` is not the root-index and that
count is zero, `d` is flagged `orphan_node` after all documents are
processed. -/
theorem c2_inbound_corrected (env : Env) (args : Args) (l : List String) (d : String)
    (hco : args.check_orphans = true) (hd : d ∈ l) :
    mainInbound env args l d = inboundSpecCount env args l d ∧
    (¬ d = env.rootIndex → inboundSpecCount env args l d = 0 →
      (d, "orphan_node") ∈ mainErrors env args l) := by
  have hmain := mainInbound_eq_spec env args l d hco hd
  refine ⟨hmain, ?_⟩
  intro hdr hz
  exact orphan_mem_of_zero env args l d hco hd hdr (hmain.trans hz)

/-- **C2, witness.** -/
theorem c2_witness :
    mainInbound envA argsDefault ["r/a.md", "r/b.md"] "r/b.md"
      = inboundSpecCount envA argsDefault ["r/a.md", "r/b.md"] "r/b.md" ∧
    ("r/b.md", "orphan_node") ∈ mainErrors envA argsDefault ["r/a.md", "r/b.md"] :=
  have h := c2_inbound_corrected envA argsDefault ["r/a.md", "r/b.md"] "r/b.md"
    (by decide) (by decide)
  ⟨h.1, h.2 (by decide) (by decide)⟩

/-! ## Claim C9 -/

theorem broken_head (t : String) : ("broken_link:" ++ t).data.head? = some 'b' := by
  rw [String.data_append]
  rfl

/-- **C9.**  When `_read_frontmatter` fails for a document `p` (missing or
unterminated frontmatter, or a read error), `main` records the error and
`continue`s: the whole document step is exactly `record_error` — no link
extraction, so `p` produces no `broken_link` findings at all, and no inbound
count is incremented by `p`'s outbound links.  Consequently a document `B`
whose only would-be referrers are such failed documents (every successfully
parsed document other than `B` has no qualifying link occurrence targeting
`B`) has inbound count zero and, when orphan checking is on and `B` is not
the root-index, is flagged `orphan_node`. -/
theorem c9_failed_parse_skips (env : Env) (args : Args) (l : List String)
    (p : String) (e : String)
    (he : readFrontmatter (env.content p) = (none, some e)) :
    (∀ st : MainState, docStep env args l st p = pushErr st p e) ∧
    (∀ t : String, ¬ (p, "broken_link:" ++ t) ∈ mainErrors env args l) ∧
    (args.check_orphans = true → ∀ B, B ∈ l → ¬ B = env.rootIndex →
      (∀ P, P ∈ l → fmOk env P = true → P = B ∨ linksToCount env P B = 0) →
      (B, "orphan_node") ∈ mainErrors env args l) := by
  refine ⟨?_, ?_, ?_⟩
  · intro st
    unfold docStep
    rw [he]
  · intro t hmem
    rw [mainErrors_eq] at hmem
    rcases List.mem_append.mp hmem with hmem | hmem
    · rw [List.mem_flatten] at hmem
      obtain ⟨es, hes, hx⟩ := hmem
      rw [List.mem_map] at hes
      obtain ⟨q, hq, rfl⟩ := hes
      have hfst := docErrors_fst env args q _ hx
      have hpq : q = p := by simpa using hfst.symm
      subst hpq
      unfold docErrors at hx
      rw [he] at hx
      simp only [List.mem_singleton, Prod.mk.injEq] at hx
      have hb := broken_head t
      rw [hx.2] at hb
      rcases readFrontmatter_err_shape he with h1 | h1 | h1 <;>
        (subst h1; exact absurd hb (by decide))
    · unfold orphanErrors at hmem
      split at hmem
      · rw [List.mem_map] at hmem
        obtain ⟨q, _, hq⟩ := hmem
        have hsnd : "orphan_node" = "broken_link:" ++ t := congrArg Prod.snd hq
        have hb := broken_head t
        rw [← hsnd] at hb
        exact absurd hb (by decide)
      · simp at hmem
  · intro hco B hB hBr hall
    have hzero : inboundSpecCount env args l B = 0 := by
      unfold inboundSpecCount
      apply List.sum_eq_zero
      intro x hx
      rw [List.mem_map] at hx
      obtain ⟨q, hq, rfl⟩ := hx
      have hqmem : q ∈ l := (List.perm_insertionSort _ l).mem_iff.mp hq
      by_cases hqB : q = B
      · simp [hqB]
      · simp only [if_neg hqB]
        by_cases hok : fmOk env q = true
        · rcases hall q hqmem hok with h | h
          · exact absurd h hqB
          · simp [hok, h]
        · simp only [Bool.not_eq_true] at hok
          simp [hok]
    have := mainInbound_eq_spec env args l B hco hB
    exact orphan_mem_of_zero env args l B hco hB hBr
      ((this.trans hzero))

/-- **C9, witness.**  `r/a.md` of `envA` has no frontmatter; applying the
theorem shows its step is pure error recording, it contributes no
`broken_link`, and `r/b.md` — referenced only by it — is flagged orphan. -/
theorem c9_witness :
    docStep envA argsDefault ["r/a.md", "r/b.md"] st0 "r/a.md"
        = pushErr st0 "r/a.md" "missing_frontmatter" ∧
    ¬ ("r/a.md", "broken_link:" ++ "b.md") ∈ mainErrors envA argsDefault ["r/a.md", "r/b.md"] ∧
    ("r/b.md", "orphan_node") ∈ mainErrors envA argsDefault ["r/a.md", "r/b.md"] :=
  have h := c9_failed_parse_skips envA argsDefault ["r/a.md", "r/b.md"] "r/a.md"
    "missing_frontmatter" (by decide)
  ⟨h.1 st0, h.2.1 "b.md",
   h.2.2 (by decide) "r/b.md" (by decide) (by decide) (by decide)⟩

/-! ## Claim C10 -/

/-- **C10.**  Only the four recognised keys are ever extracted: for any entry
`k` of `--required` outside `{id, type, title, status}`, `kv.get(k)` is
`None`, so every document whose metadata parse succeeded receives a
`missing_<k>` finding, unconditionally. -/
theorem c10_unknown_required_key (env : Env) (args : Args) (l : List String)
    (k : String) (p : String) (fm : Frontmatter)
    (hk : k ∈ args.required)
    (h4 : ¬ k = "id" ∧ ¬ k = "type" ∧ ¬ k = "title" ∧ ¬ k = "status")
    (hp : p ∈ l)
    (hfm : readFrontmatter (env.content p) = (some fm, none)) :
    (p, "missing_" ++ k) ∈ mainErrors env args l := by
  rw [mainErrors_eq]
  apply List.mem_append_left
  rw [List.mem_flatten]
  refine ⟨docErrors env args p, ?_, ?_⟩
  · exact List.mem_map_of_mem _ ((List.perm_insertionSort _ l).mem_iff.mpr hp)
  · unfold docErrors
    rw [hfm]
    apply List.mem_append_left
    apply List.mem_map_of_mem
    rw [List.mem_filter]
    refine ⟨hk, ?_⟩
    unfold kvGet isMissing
    simp [h4.1, h4.2.1, h4.2.2.1, h4.2.2.2]

/-- Arguments with a `--required` entry that is not a recognised key. -/
def argsC10 : Args :=
  ⟨true, true, ["id", "custom"]⟩

/-- **C10, witness.**  `r/b.md` of `envA` parses fine, and `--required
id,custom` yields `missing_custom` for it. -/
theorem c10_witness :
    ("r/b.md", "missing_" ++ "custom") ∈ mainErrors envA argsC10 ["r/a.md", "r/b.md"] :=
  c10_unknown_required_key envA argsC10 ["r/a.md", "r/b.md"] "custom" "r/b.md"
    ⟨some "b".data, some "t".data, some "B".data, some "s".data⟩
    (by decide) (by decide) (by decide) (by decide)

/-! ## Claim C6 -/

theorem missing_head (k : String) : ("missing_" ++ k).data.head? = some 'm' := by
  rw [String.data_append]
  rfl

theorem brokenCode_inj {a b : List Char} :
    ("broken_link:" ++ String.mk a) = ("broken_link:" ++ String.mk b) ↔ a = b := by
  constructor
  · intro h
    have h2 := congrArg String.data h
    rw [String.data_append, String.data_append] at h2
    exact List.append_cancel_left h2
  · intro h
    rw [h]

theorem targetErrs_count (env : Env) (args : Args) (p : String) (raw : List Char)
    (t : List Char) (hcl : args.check_links = true) :
    (targetErrs env args p raw).count (p, "broken_link:" ++ String.mk t)
      = (if (!(isExternalLink raw) && !(decide (normalizeLinkTarget raw = [])) &&
            endsWithMd (normalizeLinkTarget raw) && (normalizeLinkTarget raw == t) &&
            !(env.fsExists (env.resolve p (normalizeLinkTarget raw)))) = true
         then 1 else 0) := by
  unfold targetErrs
  by_cases hext : isExternalLink raw = true
  · simp [hext]
  · simp only [Bool.not_eq_true] at hext
    simp only [hext, Bool.false_eq_true, if_false, Bool.not_false, Bool.true_and]
    by_cases hemp : normalizeLinkTarget raw = []
    · simp [hemp]
    · simp only [if_neg hemp]
      by_cases hmd : endsWithMd (normalizeLinkTarget raw) = true
      · simp only [hmd, not_true_eq_false, if_false, Bool.true_and]
        by_cases hex : env.fsExists (env.resolve p (normalizeLinkTarget raw)) = false
        · rw [if_pos ⟨hcl, hex⟩]
          by_cases heq : normalizeLinkTarget raw = t
          · have : ((p, "broken_link:" ++ String.mk (normalizeLinkTarget raw)) :
                String × String) = (p, "broken_link:" ++ String.mk t) := by
              rw [heq]
            rw [heq] at hemp hex
            rw [this]
            simp [List.count_singleton, heq, hemp, hex]
          · have hne : ((p, "broken_link:" ++ String.mk (normalizeLinkTarget raw)) :
                String × String) ≠ (p, "broken_link:" ++ String.mk t) := by
              intro hcon
              exact heq (brokenCode_inj.mp (congrArg Prod.snd hcon))
            rw [List.count_eq_zero.mpr (by simp [hne.symm])]
            have : (normalizeLinkTarget raw == t) = false := by
              simp [heq]
            simp [this]
        · simp only [Bool.not_eq_false] at hex
          rw [if_neg (by intro hcon; rw [hex] at hcon; exact absurd hcon.2 (by simp))]
          simp [hex]
      · simp [hmd]

theorem count_flatten_targetErrs (env : Env) (args : Args) (p : String) (t : List Char)
    (ts : List (List Char)) (hcl : args.check_links = true) :
    ((ts.map (targetErrs env args p)).flatten).count (p, "broken_link:" ++ String.mk t)
      = ts.countP (fun raw =>
          !(isExternalLink raw) && !(decide (normalizeLinkTarget raw = [])) &&
          endsWithMd (normalizeLinkTarget raw) && (normalizeLinkTarget raw == t) &&
          !(env.fsExists (env.resolve p (normalizeLinkTarget raw)))) := by
  induction ts with
  | nil => rfl
  | cons raw ts ih =>
    simp only [List.map_cons, List.flatten_cons, List.count_append, List.countP_cons, ih,
      targetErrs_count env args p raw t hcl]
    by_cases hz : (!(isExternalLink raw) && !(decide (normalizeLinkTarget raw = [])) &&
        endsWithMd (normalizeLinkTarget raw) && (normalizeLinkTarget raw == t) &&
        !(env.fsExists (env.resolve p (normalizeLinkTarget raw)))) = true <;>
      simp [hz] <;> omega

theorem count_flatten_fst (env : Env) (args : Args) {ps : List String}
    (hnd : ps.Nodup) (p : String) (x₀ : String × String) (hx : x₀.1 = p) :
    ((ps.map (docErrors env args)).flatten).count x₀
      = if p ∈ ps then (docErrors env args p).count x₀ else 0 := by
  induction ps with
  | nil => simp
  | cons q ps ih =>
    rw [List.nodup_cons] at hnd
    obtain ⟨hq, hps⟩ := hnd
    simp only [List.map_cons, List.flatten_cons, List.count_append]
    by_cases hpq : q = p
    · subst hpq
      rw [ih hps, if_neg hq, if_pos (List.mem_cons_self _ _), Nat.add_zero]
    · have h0 : (docErrors env args q).count x₀ = 0 := by
        rw [List.count_eq_zero]
        intro hmem
        have := docErrors_fst env args q x₀ hmem
        rw [hx] at this
        exact hpq this.symm
      rw [h0, ih hps, Nat.zero_add]
      by_cases hmem : p ∈ ps
      · rw [if_pos hmem, if_pos (List.mem_cons_of_mem _ hmem)]
      · rw [if_neg hmem, if_neg (by
          intro hcon
          rcases List.mem_cons.mp hcon with hcon | hcon
          · exact hpq hcon.symm
          · exact hmem hcon)]

/-- **C6, counterexample.**  The claim says the findings list holds at most
one entry per (document, code) pair per detection pass.  But `main` records
one `broken_link` finding per link *occurrence*: `r/a.md` of `envD` links
twice to the missing `m.md`, and the identical finding appears twice. -/
theorem c6_counterexample :
    (mainErrors envD argsDefault ["r/a.md"]).count ("r/a.md", "broken_link:m.md") = 2 := by
  decide

/-- **C6, amended.**  Findings are recorded once per detection *occurrence*,
not once per (document, code) pair: the number of `broken_link:<t>` entries
recorded for a document equals the number of its link occurrences that
normalise to `t` and fail the existence check (so the same code can repeat
for one document); distinct codes for one document still coexist.  For any
run with link checking enabled, a duplicate-free discovered set, and any
discovered `p`: -/
theorem c6_count_per_occurrence (env : Env) (args : Args) (l : List String)
    (p : String) (t : List Char)
    (hnd : l.Nodup) (hp : p ∈ l) (hcl : args.check_links = true) :
    (mainErrors env args l).count (p, "broken_link:" ++ String.mk t)
      = brokenSpecCount env args p t := by
  rw [mainErrors_eq, List.count_append]
  have hsortnd : (sortPaths l).Nodup := ((List.perm_insertionSort _ l).nodup_iff).mpr hnd
  have hsortmem : p ∈ sortPaths l := (List.perm_insertionSort _ l).mem_iff.mpr hp
  rw [count_flatten_fst env args hsortnd p _ rfl, if_pos hsortmem]
  have horph : (orphanErrors env args l).count (p, "broken_link:" ++ String.mk t) = 0 := by
    rw [List.count_eq_zero]
    intro hmem
    unfold orphanErrors at hmem
    split at hmem
    · rw [List.mem_map] at hmem
      obtain ⟨q, _, hq⟩ := hmem
      have hsnd : "orphan_node" = "broken_link:" ++ String.mk t := congrArg Prod.snd hq
      have hb := broken_head (String.mk t)
      rw [← hsnd] at hb
      exact absurd hb (by decide)
    · simp at hmem
  rw [horph, Nat.add_zero]
  unfold docErrors brokenSpecCount fmOk docTextTargets
  rcases hrf : readFrontmatter (env.content p) with ⟨fm, err⟩
  cases fm with
  | none =>
    cases err with
    | some e =>
      rcases readFrontmatter_err_shape hrf with h1 | h1 | h1 <;>
        (subst h1
         rw [List.count_eq_zero.mpr]
         · rfl
         · intro hcon
           simp only [List.mem_singleton, Prod.mk.injEq] at hcon
           have hb := broken_head (String.mk t)
           rw [hcon.2] at hb
           exact absurd hb (by decide))
    | none => rfl
  | some f =>
    cases err with
    | some e =>
      rcases readFrontmatter_err_shape hrf with h1 | h1 | h1 <;>
        (subst h1
         rw [List.count_eq_zero.mpr]
         · rfl
         · intro hcon
           simp only [List.mem_singleton, Prod.mk.injEq] at hcon
           have hb := broken_head (String.mk t)
           rw [hcon.2] at hb
           exact absurd hb (by decide))
    | none =>
      rw [List.count_append]
      have hmiss : ((args.required.filter (fun k => isMissing (kvGet f k))).map
          (fun k => (p, "missing_" ++ k))).count (p, "broken_link:" ++ String.mk t) = 0 := by
        rw [List.count_eq_zero]
        intro hmem
        rw [List.mem_map] at hmem
        obtain ⟨k, _, hk⟩ := hmem
        have hsnd : "missing_" ++ k = "broken_link:" ++ String.mk t := congrArg Prod.snd hk
        have hm := missing_head k
        rw [hsnd] at hm
        have hb := broken_head (String.mk t)
        rw [hm] at hb
        exact absurd hb (by decide)
      rw [hmiss, Nat.zero_add]
      have hgate : (args.check_links || args.check_orphans) = true := by
        rw [hcl, Bool.true_or]
      obtain ⟨text, hc⟩ := readFrontmatter_ok_content hrf
      rw [hc]
      simp only [hgate, if_true]
      rw [count_flatten_targetErrs env args p t (extractTargets text) hcl]
      simp

/-- **C6, witness.** -/
theorem c6_witness :
    (mainErrors envD argsDefault ["r/a.md"]).count ("r/a.md", "broken_link:" ++ String.mk ("m.md".data))
      = brokenSpecCount envD argsDefault "r/a.md" ("m.md".data) :=
  c6_count_per_occurrence envD argsDefault ["r/a.md"] "r/a.md" ("m.md".data)
    (by decide) (by decide) (by decide)

/-! ## Claim C5 -/

/-- A document given as a list of newline-terminated physical lines. -/
def unlinesT (L : List (List Char)) : List Char :=
  (L.map (fun l => l ++ ['\n'])).flatten

/-- A line with no line-break characters in it. -/
def noBreak (l : List Char) : Prop :=
  ∀ c ∈ l, isBreakChar c = false

/-- Does this line toggle the fence state? -/
def isFenceLine (l : List Char) : Bool :=
  FENCE.isPrefixOf (pyStrip l)

instance (l : List Char) : Decidable (noBreak l) :=
  inferInstanceAs (Decidable (∀ c ∈ l, isBreakChar c = false))

theorem splitlinesAux_cons_nb (acc : List Char) (c : Char) (xs : List Char)
    (hc : isBreakChar c = false) :
    splitlinesAux false acc (c :: xs) = splitlinesAux false (c :: acc) xs := by
  have hcr : ¬ c = '\r' := by
    intro h
    rw [h] at hc
    exact absurd hc (by decide)
  simp only [splitlinesAux]
  rw [if_neg (by simp), if_neg hcr, if_neg (by simp [hc])]

theorem splitlinesAux_line (acc l rest : List Char) (hl : noBreak l) :
    splitlinesAux false acc (l ++ '\n' :: rest)
      = (acc.reverse ++ l) :: splitlinesAux false [] rest := by
  induction l generalizing acc with
  | nil =>
    rw [List.nil_append, List.append_nil]
    simp only [splitlinesAux]
    rw [if_neg (by simp), if_neg (by decide), if_pos (by decide)]
  | cons c l' ih =>
    have hc : isBreakChar c = false := hl c (List.mem_cons_self _ _)
    rw [List.cons_append, splitlinesAux_cons_nb acc c _ hc,
      ih (c :: acc) (fun x hx => hl x (List.mem_cons_of_mem _ hx))]
    simp

theorem splitlines_unlinesT (L : List (List Char)) (hL : ∀ l ∈ L, noBreak l) :
    splitlinesPy (unlinesT L) = L := by
  induction L with
  | nil => rfl
  | cons l L' ih =>
    unfold splitlinesPy unlinesT
    simp only [List.map_cons, List.flatten_cons, List.append_assoc, List.singleton_append]
    rw [splitlinesAux_line [] l _ (hL l (List.mem_cons_self _ _))]
    simp only [List.reverse_nil, List.nil_append, List.cons.injEq, true_and]
    exact ih (fun x hx => hL x (List.mem_cons_of_mem _ hx))

theorem stripFencedAux_cons (b : Bool) (l : List Char) (rest : List (List Char)) :
    stripFencedAux b (l :: rest)
      = (if FENCE.isPrefixOf (pyStrip l) = true then stripFencedAux (!b) rest
         else if b = true then stripFencedAux b rest
         else l :: stripFencedAux b rest) := rfl

theorem stripFencedAux_false_app (A X : List (List Char))
    (hA : ∀ l ∈ A, isFenceLine l = false) :
    stripFencedAux false (A ++ X) = A ++ stripFencedAux false X := by
  induction A with
  | nil => rfl
  | cons l A' ih =>
    have hl : isFenceLine l = false := hA l (List.mem_cons_self _ _)
    unfold isFenceLine at hl
    rw [List.cons_append, stripFencedAux_cons, if_neg (by simp [hl]),
      if_neg (by simp), ih (fun x hx => hA x (List.mem_cons_of_mem _ hx)),
      List.cons_append]

theorem stripFencedAux_true_drop (C X : List (List Char))
    (hC : ∀ l ∈ C, isFenceLine l = false) :
    stripFencedAux true (C ++ X) = stripFencedAux true X := by
  induction C with
  | nil => rfl
  | cons l C' ih =>
    have hl : isFenceLine l = false := hC l (List.mem_cons_self _ _)
    unfold isFenceLine at hl
    rw [List.cons_append, stripFencedAux_cons, if_neg (by simp [hl]), if_pos rfl]
    exact ih (fun x hx => hC x (List.mem_cons_of_mem _ hx))

theorem stripFencedAux_fence_cons (f : List Char) (X : List (List Char)) (b : Bool)
    (hf : isFenceLine f = true) :
    stripFencedAux b (f :: X) = stripFencedAux (!b) X := by
  unfold isFenceLine at hf
  rw [stripFencedAux_cons, if_pos hf]

theorem stripFencedAux_false_id (B : List (List Char))
    (hB : ∀ l ∈ B, isFenceLine l = false) :
    stripFencedAux false B = B := by
  have h := stripFencedAux_false_app B [] hB
  rw [List.append_nil] at h
  rw [h, show stripFencedAux false ([] : List (List Char)) = [] from rfl, List.append_nil]

theorem stripFencedAux_true_nil (C : List (List Char))
    (hC : ∀ l ∈ C, isFenceLine l = false) :
    stripFencedAux true C = [] := by
  have h := stripFencedAux_true_drop C [] hC
  rw [List.append_nil] at h
  rw [h]
  rfl

/-- **C5.**  A link or image occurrence inside a fenced code region never
produces a `broken_link` finding and never increments any inbound count:
fenced lines (between toggling fence lines, or from an unterminated fence to
the end of the document) are removed before the link regex runs, so the
extracted targets of a document with a fenced block are exactly those of the
document with the block removed — and the per-target processing loop (the
only producer of `broken_link` findings and inbound increments) computes the
same state. -/
theorem c5_fenced_blocks_ignored (A C B : List (List Char)) (f1 f2 : List Char)
    (hA : ∀ l ∈ A, noBreak l ∧ isFenceLine l = false)
    (hB : ∀ l ∈ B, noBreak l ∧ isFenceLine l = false)
    (hC : ∀ l ∈ C, noBreak l ∧ isFenceLine l = false)
    (hf1 : noBreak f1 ∧ isFenceLine f1 = true)
    (hf2 : noBreak f2 ∧ isFenceLine f2 = true) :
    extractTargets (unlinesT (A ++ [f1] ++ C ++ [f2] ++ B))
      = extractTargets (unlinesT (A ++ B)) ∧
    extractTargets (unlinesT (A ++ [f1] ++ C)) = extractTargets (unlinesT A) ∧
    (∀ env args mdl p st, (extractTargets (unlinesT (A ++ [f1] ++ C ++ [f2] ++ B))).foldl
        (targetStep env args mdl p) st
      = (extractTargets (unlinesT (A ++ B))).foldl (targetStep env args mdl p) st) := by
  have hstrip1 : stripFencedCodeBlocks (unlinesT (A ++ [f1] ++ C ++ [f2] ++ B))
      = stripFencedCodeBlocks (unlinesT (A ++ B)) := by
    unfold stripFencedCodeBlocks
    rw [splitlines_unlinesT _ (by
      intro l hl
      simp only [List.append_assoc, List.mem_append, List.mem_singleton] at hl
      rcases hl with h | h | h | h | h
      · exact (hA l h).1
      · exact (h ▸ hf1.1)
      · exact (hC l h).1
      · exact (h ▸ hf2.1)
      · exact (hB l h).1)]
    rw [splitlines_unlinesT _ (by
      intro l hl
      rcases List.mem_append.mp hl with h | h
      · exact (hA l h).1
      · exact (hB l h).1)]
    rw [List.append_assoc, List.append_assoc, List.append_assoc]
    rw [stripFencedAux_false_app A _ (fun l hl => (hA l hl).2)]
    rw [List.singleton_append, stripFencedAux_fence_cons _ _ _ hf1.2]
    rw [Bool.not_false, stripFencedAux_true_drop C _ (fun l hl => (hC l hl).2)]
    rw [List.singleton_append, stripFencedAux_fence_cons _ _ _ hf2.2]
    rw [Bool.not_true, stripFencedAux_false_id B (fun l hl => (hB l hl).2)]
    rw [stripFencedAux_false_app A B (fun l hl => (hA l hl).2)]
    rw [stripFencedAux_false_id B (fun l hl => (hB l hl).2)]
  have hstrip2 : stripFencedCodeBlocks (unlinesT (A ++ [f1] ++ C))
      = stripFencedCodeBlocks (unlinesT A) := by
    unfold stripFencedCodeBlocks
    rw [splitlines_unlinesT _ (by
      intro l hl
      simp only [List.append_assoc, List.mem_append, List.mem_singleton] at hl
      rcases hl with h | h | h
      · exact (hA l h).1
      · exact (h ▸ hf1.1)
      · exact (hC l h).1)]
    rw [splitlines_unlinesT _ (fun l hl => (hA l hl).1)]
    rw [List.append_assoc]
    rw [stripFencedAux_false_app A _ (fun l hl => (hA l hl).2)]
    rw [List.singleton_append, stripFencedAux_fence_cons _ _ _ hf1.2]
    rw [Bool.not_false, stripFencedAux_true_nil C (fun l hl => (hC l hl).2)]
    rw [List.append_nil, stripFencedAux_false_id A (fun l hl => (hA l hl).2)]
  have he1 : extractTargets (unlinesT (A ++ [f1] ++ C ++ [f2] ++ B))
      = extractTargets (unlinesT (A ++ B)) := by
    unfold extractTargets
    rw [hstrip1]
  have he2 : extractTargets (unlinesT (A ++ [f1] ++ C)) = extractTargets (unlinesT A) := by
    unfold extractTargets
    rw [hstrip2]
  exact ⟨he1, he2, fun env args mdl p st => by rw [he1]⟩

/-- **C5, witness.**  A document whose fenced block contains a link to a
missing file extracts the same targets as the document without the block. -/
theorem c5_witness :
    noBreak ("[x](missing.md)".data) ∧
    isFenceLine ("```".data) = true ∧
    extractTargets (unlinesT (["intro [a](b.md)".data] ++ ["```".data] ++
        ["[x](missing.md)".data] ++ ["```".data] ++ ["tail".data]))
      = extractTargets (unlinesT (["intro [a](b.md)".data] ++ ["tail".data])) :=
  ⟨by decide, by decide,
   (c5_fenced_blocks_ignored ["intro [a](b.md)".data] ["[x](missing.md)".data]
     ["tail".data] ("```".data) ("```".data)
     (by decide) (by decide) (by decide) (by decide) (by decide)).1⟩

/-! ## Claim C4 -/

theorem takeWhile_left (p : Char → Bool) (w rest : List Char)
    (hw : ∀ c ∈ w, p c = true) (hr : ∀ c, rest.head? = some c → p c = false) :
    (w ++ rest).takeWhile p = w := by
  rw [List.takeWhile_append_of_pos hw]
  cases rest with
  | nil => simp
  | cons c r =>
    rw [List.takeWhile_cons_of_neg (by simp [hr c rfl])]
    simp

theorem dropWhile_all {p : Char → Bool} {w : List Char} (hw : ∀ c ∈ w, p c = true) :
    w.dropWhile p = [] := by
  induction w with
  | nil => rfl
  | cons c w' ih =>
    rw [List.dropWhile_cons_of_pos (hw c (List.mem_cons_self _ _))]
    exact ih (fun x hx => hw x (List.mem_cons_of_mem _ hx))

theorem dropWhile_append_all {p : Char → Bool} {a : List Char} (z : List Char)
    (ha : ∀ c ∈ a, p c = true) : (a ++ z).dropWhile p = z.dropWhile p := by
  induction a with
  | nil => rfl
  | cons c a' ih =>
    rw [List.cons_append, List.dropWhile_cons_of_pos (ha c (List.mem_cons_self _ _))]
    exact ih (fun x hx => ha x (List.mem_cons_of_mem _ hx))

theorem dropWhile_append_cons {p : Char → Bool} {x : List Char} {y0 : Char} {ys : List Char}
    (h : x.dropWhile p = y0 :: ys) (z : List Char) :
    (x ++ z).dropWhile p = y0 :: (ys ++ z) := by
  induction x with
  | nil => simp [List.dropWhile] at h
  | cons c x' ih =>
    by_cases hc : p c = true
    · rw [List.dropWhile_cons_of_pos hc] at h
      rw [List.cons_append, List.dropWhile_cons_of_pos hc]
      exact ih h
    · rw [List.dropWhile_cons_of_neg (by simpa using hc)] at h
      rw [List.cons_append, List.dropWhile_cons_of_neg (by simpa using hc)]
      cases h
      rfl

theorem dropWhile_sat {p : Char → Bool} {x : List Char} (h : x.dropWhile p = []) :
    ∀ c ∈ x, p c = true := by
  induction x with
  | nil => intro c hc; simp at hc
  | cons c x' ih =>
    intro d hd
    by_cases hc : p c = true
    · rw [List.dropWhile_cons_of_pos hc] at h
      rcases List.mem_cons.mp hd with h' | h'
      · exact h' ▸ hc
      · exact ih h d h'
    · rw [List.dropWhile_cons_of_neg (by simpa using hc)] at h
      simp at h

theorem pyStrip_append_ws (x w2 : List Char) (hw : ∀ c ∈ w2, pyIsSpace c = true) :
    pyStrip (x ++ w2) = pyStrip x := by
  unfold pyStrip
  rcases hcase : x.dropWhile pyIsSpace with _ | ⟨y0, ys⟩
  · rw [dropWhile_append_all w2 (dropWhile_sat hcase), dropWhile_all hw]
  · rw [dropWhile_append_cons hcase w2]
    have h1 : (y0 :: (ys ++ w2)).reverse = w2.reverse ++ (ys.reverse ++ [y0]) := by
      simp [List.append_assoc]
    have h2 : (y0 :: ys).reverse = ys.reverse ++ [y0] := by simp
    rw [h1, h2, dropWhile_append_all (ys.reverse ++ [y0])
      (fun c hc => hw c (List.mem_reverse.mp hc))]

theorem matchWsEnd_ws (w tail : List Char) (hw : ∀ c ∈ w, pyIsSpace c = true)
    (ht : tail = [] ∨ ∃ r, tail = '\n' :: r) : matchWsEnd (w ++ tail) = true := by
  induction w with
  | nil =>
    rcases ht with h | ⟨r, h⟩ <;> subst h <;> simp [matchWsEnd]
  | cons c w' ih =>
    have hc := hw c (List.mem_cons_self _ _)
    simp only [List.cons_append, matchWsEnd]
    by_cases hcn : c = '\n'
    · simp [hcn]
    · rw [if_neg hcn, if_pos hc]
      exact ih (fun x hx => hw x (List.mem_cons_of_mem _ hx))

theorem matchGroup_eval (core rest : List Char)
    (hne : ¬ core = []) (hcore : ∀ c ∈ core, ¬ c = '"' ∧ ¬ c = '\n')
    (hstop : ∀ c, rest.head? = some c → (c = '"' ∨ c = '\n'))
    (htq : matchTailQuote rest = true) :
    matchGroup (core ++ rest) = some core := by
  unfold matchGroup
  have h1 : (core ++ rest).takeWhile (fun c => ¬ (c = '"' ∨ c = '\n')) = core :=
    takeWhile_left _ core rest
      (fun c hc => by simp [(hcore c hc).1, (hcore c hc).2])
      (fun c hc => by rcases hstop c hc with h | h <;> simp [h])
  rw [h1, List.drop_left]
  obtain ⟨c, g', hrev⟩ : ∃ c g', core.reverse = c :: g' := by
    rcases hx : core.reverse with _ | ⟨c, g'⟩
    · exact absurd (by simpa using congrArg List.reverse hx) hne
    · exact ⟨c, g', rfl⟩
  rw [hrev]
  simp only [tryGroup]
  rw [if_pos htq, ← hrev, List.reverse_reverse]

theorem tryWs_success (wrev rest : List Char) {g : List Char}
    (h : matchQG rest = some g) : tryWs wrev rest = some g := by
  cases wrev with
  | nil => simpa [tryWs] using h
  | cons c w =>
    simp only [tryWs]
    rw [h]

theorem matchWsQG_eval (w1 X : List Char) (hw1 : ∀ c ∈ w1, pyIsSpace c = true)
    (hX : ∀ c, X.head? = some c → pyIsSpace c = false)
    {g : List Char} (hqg : matchQG X = some g) :
    matchWsQG (w1 ++ X) = some g := by
  unfold matchWsQG
  rw [takeWhile_left pyIsSpace w1 X hw1 hX, List.drop_left]
  exact tryWs_success _ _ hqg

theorem nextLineStart_line (l rest : List Char) (hl : '\n' ∉ l) :
    nextLineStart (l ++ '\n' :: rest) = some rest := by
  induction l with
  | nil => simp [nextLineStart]
  | cons c l' ih =>
    have hc : ¬ c = '\n' := fun h => hl (h ▸ List.mem_cons_self _ _)
    rw [List.cons_append]
    simp only [nextLineStart]
    rw [if_neg hc]
    exact ih (fun h => hl (List.mem_cons_of_mem _ h))

theorem prefix_through_line (pat l rest : List Char) (hpat : '\n' ∉ pat)
    (hnp : pat.isPrefixOf l = false) :
    pat.isPrefixOf (l ++ '\n' :: rest) = false := by
  induction pat generalizing l with
  | nil => simp [List.isPrefixOf] at hnp
  | cons p pat' ih =>
    cases l with
    | nil =>
      simp only [List.nil_append, List.isPrefixOf, Bool.and_eq_true, beq_iff_eq]
      by_cases hp : p = '\n'
      · exact absurd (hp ▸ List.mem_cons_self _ _) hpat
      · simp [hp]
    | cons x l' =>
      rw [List.cons_append]
      by_cases hpx : p = x
      · subst hpx
        simp only [List.isPrefixOf, beq_self_eq_true, Bool.true_and] at hnp ⊢
        exact ih l' (fun h => hpat (List.mem_cons_of_mem _ h)) hnp
      · simp [List.isPrefixOf, hpx]

theorem isPrefixOf_append_self (a b : List Char) : a.isPrefixOf (a ++ b) = true := by
  induction a with
  | nil => cases b <;> rfl
  | cons c a' ih => simp [List.isPrefixOf, ih]

theorem searchKeyFuel_found (key s : List Char) (fuel : Nat)
    (hpre : (key ++ [':']).isPrefixOf s = true)
    {g : List Char} (hm : matchWsQG (s.drop (key.length + 1)) = some g) :
    searchKeyFuel key (fuel + 1) s = some g := by
  simp only [searchKeyFuel]
  rw [if_pos hpre, hm]

theorem searchKeyFuel_skip_one (key l rest : List Char) (fuel : Nat)
    (hkey : '\n' ∉ key) (hl : '\n' ∉ l)
    (hnp : (key ++ [':']).isPrefixOf l = false) :
    searchKeyFuel key (fuel + 1) (l ++ '\n' :: rest) = searchKeyFuel key fuel rest := by
  have hpre : (key ++ [':']).isPrefixOf (l ++ '\n' :: rest) = false :=
    prefix_through_line _ _ _ (by
      intro h
      rcases List.mem_append.mp h with h | h
      · exact hkey h
      · simp at h) hnp
  simp only [searchKeyFuel]
  rw [if_neg (by simp [hpre])]
  simp only [nextLineStart_line l rest hl]

theorem joinLines_cons (l : List Char) (rest : List (List Char)) (h : ¬ rest = []) :
    joinLines (l :: rest) = l ++ '\n' :: joinLines rest := by
  cases rest with
  | nil => exact absurd rfl h
  | cons x xs => rfl

theorem joinLines_length_ge (pre tl : List (List Char)) (htl : ¬ tl = []) :
    pre.length ≤ (joinLines (pre ++ tl)).length := by
  induction pre with
  | nil => simp
  | cons l pre' ih =>
    rw [List.cons_append, joinLines_cons _ _ (by simp [htl])]
    simp only [List.length_append, List.length_cons, List.length_cons]
    omega

theorem searchKeyFuel_skip_iter (key : List Char) (hkey : '\n' ∉ key)
    (pre tl : List (List Char)) (htl : ¬ tl = [])
    (hpre : ∀ l ∈ pre, '\n' ∉ l ∧ (key ++ [':']).isPrefixOf l = false)
    (fuel : Nat) :
    searchKeyFuel key (fuel + pre.length) (joinLines (pre ++ tl))
      = searchKeyFuel key fuel (joinLines tl) := by
  induction pre with
  | nil => rfl
  | cons l pre' ih =>
    rw [List.cons_append, joinLines_cons _ _ (by simp [htl])]
    have hstep := searchKeyFuel_skip_one key l (joinLines (pre' ++ tl))
      (fuel + pre'.length) hkey (hpre l (List.mem_cons_self _ _)).1
      (hpre l (List.mem_cons_self _ _)).2
    simp only [List.length_cons]
    rw [show fuel + (pre'.length + 1) = (fuel + pre'.length) + 1 from by omega]
    rw [hstep]
    exact ih (fun x hx => hpre x (List.mem_cons_of_mem _ hx))

/-- The portion of the key line after `key ++ ":"`: optional whitespace, the
optionally double-quoted value, trailing whitespace. -/
def keyLineTail (w1 core w2 : List Char) (q : Bool) : List Char :=
  w1 ++ (if q then '"' :: core ++ ['"'] else core) ++ w2

theorem keyline_matchWsQG (w1 core w2 tail : List Char) (q : Bool)
    (hw1 : ∀ c ∈ w1, pyIsSpace c = true)
    (hw2 : ∀ c ∈ w2, pyIsSpace c = true ∧ ¬ c = '\n')
    (hcore : ¬ core = [] ∧ ('"' ∉ core) ∧ ('\n' ∉ core))
    (hhead : q = false → ∀ c, core.head? = some c → pyIsSpace c = false)
    (htail : tail = [] ∨ ∃ r, tail = '\n' :: r) :
    matchWsQG (keyLineTail w1 core w2 q ++ tail)
      = some (if q then core else core ++ w2) := by
  have hcore' : ∀ c ∈ core, ¬ c = '"' ∧ ¬ c = '\n' :=
    fun c hc => ⟨fun h => hcore.2.1 (h ▸ hc), fun h => hcore.2.2 (h ▸ hc)⟩
  have htailstop : ∀ c, tail.head? = some c → (c = '"' ∨ c = '\n') := by
    intro c hc
    rcases htail with h | ⟨r, h⟩ <;> subst h
    · simp at hc
    · simp at hc
      exact Or.inr hc.symm
  cases q with
  | true =>
    have hX : matchQG ('"' :: (core ++ ('"' :: (w2 ++ tail)))) = some core := by
      unfold matchQG
      rw [if_pos (by simp)]
      simp only [List.tail_cons]
      apply matchGroup_eval core ('"' :: (w2 ++ tail)) hcore.1 hcore'
      · intro c hc
        simp only [List.head?_cons, Option.some.injEq] at hc
        exact Or.inl hc.symm
      · unfold matchTailQuote
        rw [if_pos (by simp)]
        simp only [List.tail_cons]
        exact matchWsEnd_ws w2 tail (fun c hc => (hw2 c hc).1) htail
    have hmain : matchWsQG (w1 ++ ('"' :: (core ++ ('"' :: (w2 ++ tail))))) = some core :=
      matchWsQG_eval w1 _ hw1 (by
        intro c hc
        simp only [List.head?_cons, Option.some.injEq] at hc
        rw [← hc]
        decide) hX
    show matchWsQG ((w1 ++ ('"' :: core ++ ['"']) ++ w2) ++ tail) = some core
    simpa [List.append_assoc] using hmain
  | false =>
    obtain ⟨c0, core', hc0⟩ : ∃ c0 core', core = c0 :: core' := by
      rcases hx : core with _ | ⟨c0, core'⟩
      · exact absurd hx hcore.1
      · exact ⟨c0, core', rfl⟩
    have hX : matchQG (core ++ (w2 ++ tail)) = some (core ++ w2) := by
      unfold matchQG
      rw [if_neg (by
        rw [hc0]
        simp only [List.cons_append, List.head?_cons, Option.some.injEq]
        intro h
        apply hcore.2.1
        rw [hc0, h]
        exact List.mem_cons_self _ _)]
      have hrest : matchGroup ((core ++ w2) ++ tail) = some (core ++ w2) := by
        apply matchGroup_eval (core ++ w2) tail (by simp [hcore.1]) ?_ htailstop ?_
        · intro c hc
          rcases List.mem_append.mp hc with h | h
          · exact hcore' c h
          · refine ⟨fun hq => ?_, (hw2 c h).2⟩
            have hs := (hw2 c h).1
            rw [hq] at hs
            exact absurd hs (by decide)
        · unfold matchTailQuote
          rcases htail with h | ⟨r, h⟩ <;> subst h
          · rw [if_neg (by simp)]
            rfl
          · rw [if_neg (by simp)]
            simp [matchWsEnd]
      simpa [List.append_assoc] using hrest
    have hmain : matchWsQG (w1 ++ (core ++ (w2 ++ tail))) = some (core ++ w2) :=
      matchWsQG_eval w1 _ hw1 (by
        intro c hc
        rw [hc0] at hc
        simp only [List.cons_append, List.head?_cons, Option.some.injEq] at hc
        rw [← hc]
        exact hhead rfl c0 (by rw [hc0]; rfl)) hX
    show matchWsQG ((w1 ++ core ++ w2) ++ tail) = some (core ++ w2)
    simpa [List.append_assoc] using hmain

/-- **C4, counterexample.**  The claim quantifies over *every* line of the
exact form `key: value` in the block.  But `re.search` returns only the
first match: in the block `"id: a\nid: b"` both lines have the exact form,
and the claim demands the extracted id equal both `"a"` and `"b"`; the
parser extracts `"a"`, so the instance for the second line is false. -/
theorem c4_counterexample :
    pick ("id".data) ("id: a\nid: b".data) = some ("a".data) ∧
    ¬ (("a".data : List Char) = "b".data) := by
  exact ⟨by decide, by decide⟩

/-- **C4, amended.**  For a bounded block in which no line before the key
line begins with `key ++ ":"` (in particular, for the *first* line of that
form when the key occurs on no earlier line), a line of the exact form
`key: value` — optional whitespace after the colon, the value optionally
wrapped in double quotes, optional trailing non-newline whitespace, where
the value is non-empty and contains no double quote or newline, and in the
unquoted case does not start with whitespace — yields exactly the value with
surrounding quotes and whitespace stripped, regardless of the order of key
lines or of interleaved unrelated lines elsewhere in the block. -/
theorem c4_pick_extracts (key : List Char) (pre post : List (List Char))
    (w1 w2 core : List Char) (q : Bool)
    (hkey : '\n' ∉ key)
    (hpre : ∀ l ∈ pre, '\n' ∉ l ∧ (key ++ [':']).isPrefixOf l = false)
    (hw1 : ∀ c ∈ w1, pyIsSpace c = true ∧ ¬ c = '\n')
    (hw2 : ∀ c ∈ w2, pyIsSpace c = true ∧ ¬ c = '\n')
    (hcore : ¬ core = [] ∧ ('"' ∉ core) ∧ ('\n' ∉ core))
    (hhead : q = false → ∀ c, core.head? = some c → pyIsSpace c = false) :
    pick key (joinLines (pre ++ (key ++ ':' :: keyLineTail w1 core w2 q) :: post))
      = some (pyStrip core) := by
  unfold pick
  set text := joinLines (pre ++ (key ++ ':' :: keyLineTail w1 core w2 q) :: post) with htext
  have hlen : pre.length ≤ text.length := by
    rw [htext]
    exact joinLines_length_ge pre _ (by simp)
  have hfuel : text.length + 1 = (text.length + 1 - pre.length) + pre.length := by omega
  rw [hfuel, searchKeyFuel_skip_iter key hkey pre _ (by simp) hpre _]
  obtain ⟨m, hm⟩ : ∃ m, text.length + 1 - pre.length = m + 1 := ⟨text.length - pre.length, by omega⟩
  rw [hm]
  set s := joinLines ((key ++ ':' :: keyLineTail w1 core w2 q) :: post) with hs
  have hsplit : s = (key ++ [':']) ++ (keyLineTail w1 core w2 q ++
      (if post = [] then [] else '\n' :: joinLines post)) := by
    rw [hs]
    by_cases hp : post = []
    · subst hp
      simp [joinLines, List.append_assoc]
    · rw [joinLines_cons _ _ hp, if_neg hp]
      simp [List.append_assoc]
  have htail : (if post = [] then ([] : List Char) else '\n' :: joinLines post) = [] ∨
      ∃ r, (if post = [] then ([] : List Char) else '\n' :: joinLines post) = '\n' :: r := by
    by_cases hp : post = []
    · exact Or.inl (by simp [hp])
    · exact Or.inr ⟨joinLines post, by simp [hp]⟩
  have hmatch := keyline_matchWsQG w1 core w2 _ q
    (fun c hc => (hw1 c hc).1) (fun c hc => ⟨(hw2 c hc).1, (hw2 c hc).2⟩) hcore hhead htail
  have hfound := searchKeyFuel_found key s m (by
    rw [hsplit]
    exact isPrefixOf_append_self _ _) (g := if q then core else core ++ w2) (by
    rw [hsplit]
    rw [show (key.length + 1) = (key ++ [':']).length from by simp]
    rw [List.drop_left]
    exact hmatch)
  rw [hfound]
  cases q with
  | true => rfl
  | false =>
    have hif : (if false = true then core else core ++ w2) = core ++ w2 := rfl
    rw [hif, Option.map_some', pyStrip_append_ws core w2 (fun c hc => (hw2 c hc).1)]

/-- **C4, witness.**  A block with unrelated and differently-keyed lines
around a quoted `id` line. -/
theorem c4_witness :
    pick ("id".data) (joinLines (["type: note".data, "junk - here".data] ++
        ("id".data ++ ':' :: keyLineTail [' '] ("x-1".data) [' ', ' '] true) :: ["status: ok".data]))
      = some (pyStrip ("x-1".data)) :=
  c4_pick_extracts ("id".data) ["type: note".data, "junk - here".data] ["status: ok".data]
    [' '] [' ', ' '] ("x-1".data) true
    (by decide) (by decide) (by decide) (by decide) (by decide) (by intro h; exact absurd h (by decide))

end GraphMemoryLint
